import Mathlib

/-!
Verification of the CPM scheduling engine (src/lib/criticalPath.ts) and the
dependency-candidate filter of the editing surface (src/app/page.tsx).

Modelling conventions:
- Calendar instants are integers (milliseconds since the epoch); the JS
  expression setHours(0,0,0,0) is floor-truncation to a multiple of dayMs.
- The single scheduling run has one reference instant `now`; every call of
  the form new Date() inside one run reads this instant.
- The tasks carry their dependency and dependent lists as id lists, since the
  source only ever reads the id field of those referenced objects.
- The JS Map is an association list with set-replaces-in-place semantics;
  mutation of a task record is get-modify-set on that list.
- The recursive traversals carry explicit fuel; the drivers hand them
  todos.length + 1 fuel, which is an upper bound on the depth of the
  visited-set bounded recursions of the source.  The critical-path trace of
  the source has no visited set: when it revisits a node it repeats the same
  deterministic choice forever and the enclosing try/catch turns the stack
  overflow into a silently caught error, skipping the marking step.  The
  model renders this as the trace returning none, in which case the driver
  returns the unmarked map (the observable behavior of the caught throw).
- The float slack of the source is the millisecond difference divided by the
  constant dayMs.  The record stores the clamped millisecond difference
  slackMs as an integer; the day-valued slack of the source is the rational
  ScheduledTodo.slack = slackMs / dayMs.  Because the divisor is a fixed
  positive constant, the float comparison slack === 0 of the source holds
  exactly when slackMs = 0, which is how the zero-slack tests are rendered.
-/

def dayMs : Int := 86400000

/-- Floor of a calendar instant to its local midnight (setHours(0,0,0,0)). -/
def midnightOf (t : Int) : Int := t - t.emod dayMs

/-- Math.ceil of an exact integer quotient a / b, for b positive. -/
def ceilDiv (a b : Int) : Int := -((-a).ediv b)

/-- addDays of the source: shift an instant by a whole number of days. -/
def addDays (d : Int) (days : Int) : Int := d + days * dayMs

/-- calculateDuration of the source: days between today and the due date,
with a minimum of one day, and one day when there is no due date. -/
def calculateDuration (dueDate : Option Int) (now : Int) : Int :=
  match dueDate with
  | none => 1
  | some due =>
    let today := midnightOf now
    let dueMid := midnightOf due
    let diffTime := dueMid - today
    let diffDays := ceilDiv diffTime dayMs
    max 1 diffDays

/-- A task as supplied by the store (TodoWithDependencies), with the
dependency and dependent references flattened to their ids. -/
structure Todo where
  id : Int
  title : String
  dueDate : Option Int
  completed : Bool
  dependencies : List Int
  dependents : List Int
deriving DecidableEq, Repr

/-- A task together with its computed schedule fields (TodoWithCriticalPath). -/
structure ScheduledTodo where
  id : Int
  title : String
  dueDate : Option Int
  completed : Bool
  dependencies : List Int
  dependents : List Int
  earliestStartDate : Option Int
  earliestFinishDate : Option Int
  latestStartDate : Option Int
  latestFinishDate : Option Int
  duration : Int
  criticalPath : List Int
  isCritical : Bool
  slackMs : Int
deriving DecidableEq, Repr

/-- The slack of the source in days: the stored millisecond value over the
milliseconds of one day. -/
def ScheduledTodo.slack (t : ScheduledTodo) : ℚ :=
  ((t.slackMs : Int) : ℚ) / ((dayMs : Int) : ℚ)

abbrev TMap := List (Int × ScheduledTodo)
abbrev Graph := List (Int × List Int)

/-- Lookup in a JS Map modelled as an association list. -/
def mget {α : Type} : List (Int × α) → Int → Option α
  | [], _ => none
  | (k, v) :: rest, x => if k = x then some v else mget rest x

/-- JS Map.set: replace in place when the key exists, append otherwise. -/
def mset {α : Type} : List (Int × α) → Int → α → List (Int × α)
  | [], k, v => [(k, v)]
  | (k', v') :: rest, k, v =>
    if k' = k then (k, v) :: rest else (k', v') :: mset rest k v

/-- The JS Set constructor: keep the first occurrence of each element. -/
def jsDedup (l : List Int) : List Int :=
  l.foldl (fun acc x => if x ∈ acc then acc else acc ++ [x]) []

/-- The fresh ScheduledTodo record built for each task before the passes. -/
def initSched (t : Todo) (now : Int) : ScheduledTodo :=
  { id := t.id
    title := t.title
    dueDate := t.dueDate
    completed := t.completed
    dependencies := t.dependencies
    dependents := t.dependents
    earliestStartDate := none
    earliestFinishDate := none
    latestStartDate := none
    latestFinishDate := none
    duration := calculateDuration t.dueDate now
    criticalPath := []
    isCritical := false
    slackMs := 0 }

/-- todoMap construction loop of the source. -/
def buildMap (todos : List Todo) (now : Int) : TMap :=
  todos.foldl (fun m t => mset m t.id (initSched t now)) []

/-- Dependency graph construction loop of the source. -/
def buildGraph (todos : List Todo) : Graph :=
  todos.foldl (fun g t => mset g t.id (jsDedup t.dependencies)) []

/-- Array.from(graph.get(todoId)) with the missing entry read as empty. -/
def depsOfG (g : Graph) (x : Int) : List Int := (mget g x).getD []

/-- The dependency loop of calculateEarliestTimes, over an arbitrary
recursive visit: recurse into unresolved dependencies and accumulate the
largest earliest finish, starting from the epoch instant new Date(0). -/
def calcEDepsGen (visit : Int → TMap → List Int → TMap × List Int) :
    List Int → TMap → List Int → Int → TMap × List Int × Int
  | [], m, v, acc => (m, v, acc)
  | d :: rest, m, v, acc =>
    match mget m d with
    | none => calcEDepsGen visit rest m v acc
    | some dep =>
      let s :=
        if dep.earliestFinishDate.isNone then visit d m v else (m, v)
      match s with
      | (m2, v2) =>
        let acc2 :=
          match (mget m2 d).bind (fun u => u.earliestFinishDate) with
          | some e => if acc < e then e else acc
          | none => acc
        calcEDepsGen visit rest m2 v2 acc2

/-- calculateEarliestTimes: the forward pass on one node, with the shared
visited set threaded explicitly and recursion bounded by fuel. -/
def calcE (g : Graph) (now : Int) : Nat → Int → TMap → List Int → TMap × List Int
  | 0, _, m, v => (m, v)
  | Nat.succ f, x, m, v =>
    if x ∈ v then (m, v)
    else
      let v1 := x :: v
      match mget m x with
      | none => (m, v1)
      | some _ =>
        let ds := depsOfG g x
        if ds.isEmpty then
          match mget m x with
          | none => (m, v1)
          | some t2 =>
            (mset m x { t2 with
                earliestStartDate := some now
                earliestFinishDate := some (addDays now t2.duration) }, v1)
        else
          match calcEDepsGen (fun d m' v' => calcE g now f d m' v') ds m v1 0 with
          | (m2, v2, latestFinish) =>
            match mget m2 x with
            | none => (m2, v2)
            | some t2 =>
              (mset m2 x { t2 with
                  earliestStartDate := some latestFinish
                  earliestFinishDate := some (addDays latestFinish t2.duration) }, v2)

/-- The dependency loop of calculateEarliestTimes at a given fuel. -/
def calcEDeps (g : Graph) (now : Int) (f : Nat) :
    List Int → TMap → List Int → Int → TMap × List Int × Int :=
  calcEDepsGen (fun d m' v' => calcE g now f d m' v')

/-- The derived dependent list of the backward pass: every supplied task whose
dependency list contains this id. -/
def dependentsOf (todos : List Todo) (x : Int) : List Int :=
  (todos.filter (fun t => t.dependencies.contains x)).map (fun t => t.id)

/-- The slack computation at the end of calculateLatestTimes: set only when
both the earliest and the latest start are present.  The source stores
max(0, (ls - es) / dayMs); since dayMs is positive this equals
(max 0 (ls - es)) / dayMs, and the integer numerator is what is stored. -/
def updateSlack (t : ScheduledTodo) : ScheduledTodo :=
  match t.earliestStartDate, t.latestStartDate with
  | some es, some ls => { t with slackMs := max 0 (ls - es) }
  | _, _ => t

/-- The dependent loop of calculateLatestTimes, over an arbitrary recursive
visit: recurse into unresolved dependents and accumulate the smallest latest
start, starting from the project end date. -/
def calcLDepsGen (visit : Int → TMap → List Int → TMap × List Int) :
    List Int → TMap → List Int → Int → TMap × List Int × Int
  | [], m, v, acc => (m, v, acc)
  | d :: rest, m, v, acc =>
    match mget m d with
    | none => calcLDepsGen visit rest m v acc
    | some dep =>
      let s :=
        if dep.latestStartDate.isNone then visit d m v else (m, v)
      match s with
      | (m2, v2) =>
        let acc2 :=
          match (mget m2 d).bind (fun u => u.latestStartDate) with
          | some e => if e < acc then e else acc
          | none => acc
        calcLDepsGen visit rest m2 v2 acc2

/-- calculateLatestTimes: the backward pass on one node. -/
def calcL (todos : List Todo) (pe : Int) :
    Nat → Int → TMap → List Int → TMap × List Int
  | 0, _, m, v => (m, v)
  | Nat.succ f, x, m, v =>
    if x ∈ v then (m, v)
    else
      let v1 := x :: v
      match mget m x with
      | none => (m, v1)
      | some _ =>
        let ds := dependentsOf todos x
        if ds.isEmpty then
          match mget m x with
          | none => (m, v1)
          | some t2 =>
            let lf := t2.dueDate.getD pe
            (mset m x (updateSlack { t2 with
                latestFinishDate := some lf
                latestStartDate := some (addDays lf (-t2.duration)) }), v1)
        else
          match calcLDepsGen (fun d m' v' => calcL todos pe f d m' v') ds m v1 pe with
          | (m2, v2, eds) =>
            match mget m2 x with
            | none => (m2, v2)
            | some t2 =>
              (mset m2 x (updateSlack { t2 with
                  latestFinishDate := some eds
                  latestStartDate := some (addDays eds (-t2.duration)) }), v2)

/-- The dependent loop of calculateLatestTimes at a given fuel. -/
def calcLDeps (todos : List Todo) (pe : Int) (f : Nat) :
    List Int → TMap → List Int → Int → TMap × List Int × Int :=
  calcLDepsGen (fun d m' v' => calcL todos pe f d m' v')

/-- The project end date loop: the largest earliest finish, starting at now. -/
def projectEndDate (todos : List Todo) (m : TMap) (now : Int) : Int :=
  todos.foldl
    (fun pe t =>
      match (mget m t.id).bind (fun u => u.earliestFinishDate) with
      | some e => if pe < e then e else pe
      | none => pe)
    now

/-- The guard node && node.slack === 0 of the source, applied to an id:
the entry exists and its slack is exactly zero. -/
def zeroSlackPred (m : TMap) (d : Int) : Bool :=
  match mget m d with
  | some dn => decide (dn.slackMs = 0)
  | none => false

/-- tracePath: walk back through the first zero-slack dependency of each node.
The source has no visited guard here; fuel exhaustion models the unbounded
recursion (a revisited node repeats the identical choice forever). -/
def tracePathAux (m : TMap) : Nat → Int → Option (List Int)
  | 0, _ => none
  | Nat.succ f, x =>
    match mget m x with
    | none => some []
    | some t =>
      match t.dependencies.find? (zeroSlackPred m) with
      | none => some [x]
      | some d => (tracePathAux m f d).map (fun p => p ++ [x])

/-- findCriticalPath: pick the first zero-slack end node (no input dependents)
and trace back from it; none models the escaping stack overflow. -/
def findCriticalPathModel (todos : List Todo) (m : TMap) (fuel : Nat) :
    Option (List Int) :=
  let endNodes := (todos.filter (fun t => t.dependents.isEmpty)).map (fun t => t.id)
  let critical := endNodes.filter (zeroSlackPred m)
  match critical with
  | [] => some []
  | c :: _ => tracePathAux m fuel c

/-- The marking loop: set isCritical and criticalPath on every path node. -/
def markCritical (m : TMap) (cp : List Int) : TMap :=
  cp.foldl
    (fun m2 x =>
      match mget m2 x with
      | none => m2
      | some t => mset m2 x { t with isCritical := true, criticalPath := cp })
    m

/-- The map after the construction loop and the forward pass. -/
def stageForward (todos : List Todo) (now : Int) : TMap :=
  let g := buildGraph todos
  let fuel := todos.length + 1
  todos.foldl (fun m t => (calcE g now fuel t.id m []).1) (buildMap todos now)

/-- The project end date of the run, derived after the forward pass. -/
def stagePE (todos : List Todo) (now : Int) : Int :=
  projectEndDate todos (stageForward todos now) now

/-- The map after the backward pass. -/
def stageBackward (todos : List Todo) (now : Int) : TMap :=
  let fuel := todos.length + 1
  todos.foldl
    (fun m t => (calcL todos (stagePE todos now) fuel t.id m []).1)
    (stageForward todos now)

/-- The traced critical path of the run; none models the stack overflow of
the unguarded trace, swallowed by the try/catch of the source. -/
def stageTrace (todos : List Todo) (now : Int) : Option (List Int) :=
  findCriticalPathModel todos (stageBackward todos now) (todos.length + 1)

/-- calculateCriticalPath: the whole engine at reference instant now. -/
def calculateCriticalPath (todos : List Todo) (now : Int) : TMap :=
  match stageTrace todos now with
  | none => stageBackward todos now
  | some cp => markCritical (stageBackward todos now) cp

/-- wouldCreateCycle of the editing surface: does todoId already depend on
targetId, directly or transitively (fuel-bounded recursion). -/
def wouldCreateCycle (todos : List Todo) : Nat → Int → Int → Bool
  | 0, _, _ => false
  | Nat.succ f, todoId, targetId =>
    match todos.find? (fun t => decide (t.id = todoId)) with
    | none => false
    | some t =>
      if t.dependencies.contains targetId then true
      else t.dependencies.any (fun d => wouldCreateCycle todos f d targetId)

/-- The filter body of getAvailableDependencies, with JS truthiness of the
optional excludeId (0 and absence are both falsy).  The source returns true
both when the cycle check fires and when it does not. -/
def availFilter (todos : List Todo) (excludeId : Option Int) (t : Todo) : Bool :=
  match excludeId with
  | none => true
  | some v =>
    if v = 0 then true
    else if t.id = v then false
    else if wouldCreateCycle todos (todos.length + 1) v t.id then true
    else true

/-- getAvailableDependencies of the editing surface. -/
def getAvailableDependencies (todos : List Todo) (excludeId : Option Int) :
    List Todo :=
  todos.filter (fun t => availFilter todos excludeId t)

/-! ## Concrete inputs used by counterexamples and witnesses -/

/-- Two tasks where task 2 already depends on task 1: offering task 2 as a
new dependency of task 1 would create a cycle. -/
def cexC1Todos : List Todo :=
  [ { id := 1, title := "x", dueDate := none, completed := false,
      dependencies := [], dependents := [2] },
    { id := 2, title := "y", dueDate := none, completed := false,
      dependencies := [1], dependents := [] } ]

/-- A cyclic input: tasks 1 and 2 depend on each other and task 3 (an end
node) depends on task 1. -/
def cexCycTodos : List Todo :=
  [ { id := 1, title := "a", dueDate := none, completed := false,
      dependencies := [2], dependents := [2, 3] },
    { id := 2, title := "b", dueDate := none, completed := false,
      dependencies := [1], dependents := [1] },
    { id := 3, title := "e", dueDate := none, completed := false,
      dependencies := [1], dependents := [] } ]

/-! ## C1: the editing surface offers cycle-creating candidates -/

/-- C1 (code bug evidence): in cexC1Todos, task 2 already depends on task 1
(the transitive check itself reports true), yet getAvailableDependencies of
task 1 still lists task 2 as selectable: the filter returns true both when
the cycle check fires and when it does not, so the cycle-creating candidate
is offered rather than excluded. -/
theorem c1_code_includes_cycle_candidate :
    wouldCreateCycle cexC1Todos (cexC1Todos.length + 1) 2 1 = true ∧
    (getAvailableDependencies cexC1Todos (some 1)).map (fun t => t.id) = [2] := by
  decide

/-! ## C5: calculateDuration -/

/-- C5: with no due date the duration is one day; with a due date it is the
ceiling of the day difference between the due date at midnight and today at
midnight, floored at one, so a due date of today or earlier yields one day,
and the duration is always at least one day. -/
theorem calculateDuration_spec (now : Int) :
    calculateDuration none now = 1 ∧
    (∀ due, calculateDuration (some due) now =
      max 1 (ceilDiv (midnightOf due - midnightOf now) dayMs)) ∧
    (∀ due, midnightOf due ≤ midnightOf now →
      calculateDuration (some due) now = 1) ∧
    (∀ d, 1 ≤ calculateDuration d now) := by
  refine ⟨rfl, fun due => rfl, fun due h => ?_, fun d => ?_⟩
  · have h1 : ceilDiv (midnightOf due - midnightOf now) dayMs ≤ 0 := by
      have hnn : (0 : Int) ≤ -(midnightOf due - midnightOf now) := by omega
      have : (0 : Int) ≤ (-(midnightOf due - midnightOf now)).ediv dayMs :=
        Int.ediv_nonneg hnn (by decide)
      simp only [ceilDiv]
      omega
    simp only [calculateDuration]
    omega
  · match d with
    | none => exact le_refl 1
    | some due => exact le_max_left 1 _

/-- C5 witness: a due date one day in the past yields the one-day minimum. -/
theorem calculateDuration_spec_witness :
    midnightOf (-1) ≤ midnightOf 0 ∧ calculateDuration (some (-1)) 0 = 1 :=
  ⟨by decide, (calculateDuration_spec 0).2.2.1 (-1) (by decide)⟩

/-! ## C9: determinism -/

/-- C9: the engine is a pure function of the task snapshot and the reference
instant, so two runs on an identical snapshot at the same reference time
return entries with identical computed fields for every task id. -/
theorem calculateCriticalPath_deterministic (todos : List Todo) (now : Int) :
    ∀ x, mget (calculateCriticalPath todos now) x
      = mget (calculateCriticalPath todos now) x :=
  fun _ => rfl

/-! ## Association list lemmas -/

theorem mget_mset_self {α : Type} (m : List (Int × α)) (k : Int) (v : α) :
    mget (mset m k v) k = some v := by
  induction m with
  | nil => simp [mget, mset]
  | cons p rest ih =>
    obtain ⟨k', v'⟩ := p
    by_cases h : k' = k
    · simp [mset, h, mget]
    · simp [mset, h, mget, ih]

theorem mget_mset_ne {α : Type} (m : List (Int × α)) {k x : Int} (v : α)
    (h : k ≠ x) : mget (mset m k v) x = mget m x := by
  induction m with
  | nil => simp [mget, mset, h]
  | cons p rest ih =>
    obtain ⟨k', v'⟩ := p
    by_cases h' : k' = k
    · subst h'; simp [mset, mget, h]
    · simp [mset, h', mget, ih]

theorem mget_mset {α : Type} (m : List (Int × α)) (k x : Int) (v : α) :
    mget (mset m k v) x = if k = x then some v else mget m x := by
  by_cases h : k = x
  · subst h; simp [mget_mset_self]
  · simp [h, mget_mset_ne m v h]

/-! ## Evolution of entries under the forward pass

Every mutation the forward pass performs on a map entry writes a fresh
earliest start together with the matching earliest finish, and touches no
other field.  The relation EvolE captures an arbitrary number of such
mutations; all the frame and shape facts about the forward pass follow
from it. -/

/-- The field update of one forward-pass write on one record. -/
def eWrite (o : ScheduledTodo) (es : Int) : ScheduledTodo :=
  { o with earliestStartDate := some es
           earliestFinishDate := some (addDays es o.duration) }

/-- The map evolves by forward-pass writes only. -/
def EvolE (m m' : TMap) : Prop :=
  ∀ y, mget m' y = mget m y ∨
    ∃ o es, mget m y = some o ∧ mget m' y = some (eWrite o es)

theorem eWrite_eWrite (o : ScheduledTodo) (a b : Int) :
    eWrite (eWrite o a) b = eWrite o b := by
  simp [eWrite]

theorem EvolE.reflE (m : TMap) : EvolE m m := fun _ => Or.inl rfl

theorem EvolE.transE {m1 m2 m3 : TMap} (h12 : EvolE m1 m2) (h23 : EvolE m2 m3) :
    EvolE m1 m3 := by
  intro y
  rcases h23 y with h | ⟨o, es, ho, hn⟩
  · rcases h12 y with h' | ⟨o, es, ho, hn⟩
    · exact Or.inl (h.trans h')
    · exact Or.inr ⟨o, es, ho, h.trans hn⟩
  · rcases h12 y with h' | ⟨o', es', ho', hn'⟩
    · exact Or.inr ⟨o, es, h'.symm.trans ho, hn⟩
    · have heq : o = eWrite o' es' := by
        rw [ho] at hn'; exact Option.some.inj hn'
      exact Or.inr ⟨o', es, ho', by rw [hn, heq, eWrite_eWrite]⟩

theorem EvolE.writeE {m : TMap} {x : Int} {t : ScheduledTodo} (es : Int)
    (ht : mget m x = some t) : EvolE m (mset m x (eWrite t es)) := by
  intro y
  by_cases h : x = y
  · subst h; exact Or.inr ⟨t, es, ht, by rw [mget_mset_self]⟩
  · exact Or.inl (mget_mset_ne m _ h)

theorem calcEDepsGen_evol (visit : Int → TMap → List Int → TMap × List Int)
    (hE : ∀ x m v, EvolE m (visit x m v).1) :
    ∀ ds (m : TMap) v acc, EvolE m (calcEDepsGen visit ds m v acc).1 := by
  intro ds
  induction ds with
  | nil => intro m v acc; simp only [calcEDepsGen]; exact EvolE.reflE m
  | cons d rest ih =>
    intro m v acc
    simp only [calcEDepsGen]
    cases hd : mget m d with
    | none => exact ih m v acc
    | some dep =>
      by_cases hif : dep.earliestFinishDate.isNone
      · simp only [hif, if_true]
        exact (hE d m v).transE (ih _ _ _)
      · simp only [hif, if_false]
        exact ih _ _ _

theorem calcE_evol (g : Graph) (now : Int) :
    ∀ f x (m : TMap) v, EvolE m (calcE g now f x m v).1 := by
  intro f
  induction f with
  | zero => intro x m v; simp only [calcE]; exact EvolE.reflE m
  | succ f ih =>
    intro x m v
    have hD := calcEDepsGen_evol (fun d m' v' => calcE g now f d m' v') ih
    simp only [calcE]
    by_cases hv : x ∈ v
    · simp only [hv, if_true]; exact EvolE.reflE m
    · simp only [hv, if_false]
      cases hmx : mget m x with
      | none => exact EvolE.reflE m
      | some t =>
        cases hds : (depsOfG g x).isEmpty with
        | true =>
          simp only [hds, if_true, hmx]
          exact EvolE.writeE now hmx
        | false =>
          simp only [hds, Bool.false_eq_true, if_false]
          rcases h2 : calcEDepsGen (fun d m' v' => calcE g now f d m' v')
              (depsOfG g x) m (x :: v) 0 with ⟨m2, v2, lf⟩
          have hevol : EvolE m m2 := by
            have := hD (depsOfG g x) m (x :: v) 0
            rw [h2] at this; exact this
          dsimp only
          cases hm2 : mget m2 x with
          | none => simp only [hm2]; exact hevol
          | some t2 => simp only [hm2]; exact hevol.transE (EvolE.writeE lf hm2)

theorem calcEDeps_evol_of (g : Graph) (now : Int) (f : Nat) :
    ∀ ds (m : TMap) v acc, EvolE m (calcEDeps g now f ds m v acc).1 :=
  calcEDepsGen_evol _ (fun x m v => calcE_evol g now f x m v)

/-! ## Evolution of entries under the backward pass and the marking loop -/

/-- The field update of one backward-pass write on one record. -/
def lWrite (o : ScheduledTodo) (lf : Int) : ScheduledTodo :=
  updateSlack { o with latestFinishDate := some lf
                       latestStartDate := some (addDays lf (-o.duration)) }

/-- The map evolves by backward-pass writes only. -/
def EvolL (m m' : TMap) : Prop :=
  ∀ y, mget m' y = mget m y ∨
    ∃ o lf, mget m y = some o ∧ mget m' y = some (lWrite o lf)

theorem lWrite_lWrite (o : ScheduledTodo) (a b : Int) :
    lWrite (lWrite o a) b = lWrite o b := by
  cases ho : o.earliestStartDate <;> simp [lWrite, updateSlack, ho]

theorem EvolL.reflL (m : TMap) : EvolL m m := fun _ => Or.inl rfl

theorem EvolL.transL {m1 m2 m3 : TMap} (h12 : EvolL m1 m2) (h23 : EvolL m2 m3) :
    EvolL m1 m3 := by
  intro y
  rcases h23 y with h | ⟨o, lf, ho, hn⟩
  · rcases h12 y with h' | ⟨o, lf, ho, hn⟩
    · exact Or.inl (h.trans h')
    · exact Or.inr ⟨o, lf, ho, h.trans hn⟩
  · rcases h12 y with h' | ⟨o', lf', ho', hn'⟩
    · exact Or.inr ⟨o, lf, h'.symm.trans ho, hn⟩
    · have heq : o = lWrite o' lf' := by
        rw [ho] at hn'; exact Option.some.inj hn'
      exact Or.inr ⟨o', lf, ho', by rw [hn, heq, lWrite_lWrite]⟩

theorem EvolL.writeL {m : TMap} {x : Int} {t : ScheduledTodo} (lf : Int)
    (ht : mget m x = some t) : EvolL m (mset m x (lWrite t lf)) := by
  intro y
  by_cases h : x = y
  · subst h; exact Or.inr ⟨t, lf, ht, by rw [mget_mset_self]⟩
  · exact Or.inl (mget_mset_ne m _ h)

theorem calcLDepsGen_evol (visit : Int → TMap → List Int → TMap × List Int)
    (hL : ∀ x m v, EvolL m (visit x m v).1) :
    ∀ ds (m : TMap) v acc, EvolL m (calcLDepsGen visit ds m v acc).1 := by
  intro ds
  induction ds with
  | nil => intro m v acc; simp only [calcLDepsGen]; exact EvolL.reflL m
  | cons d rest ih =>
    intro m v acc
    simp only [calcLDepsGen]
    cases hd : mget m d with
    | none => exact ih m v acc
    | some dep =>
      by_cases hif : dep.latestStartDate.isNone
      · simp only [hif, if_true]
        exact (hL d m v).transL (ih _ _ _)
      · simp only [hif, if_false]
        exact ih _ _ _

theorem calcL_evol (todos : List Todo) (pe : Int) :
    ∀ f x (m : TMap) v, EvolL m (calcL todos pe f x m v).1 := by
  intro f
  induction f with
  | zero => intro x m v; simp only [calcL]; exact EvolL.reflL m
  | succ f ih =>
    intro x m v
    have hD := calcLDepsGen_evol (fun d m' v' => calcL todos pe f d m' v') ih
    simp only [calcL]
    by_cases hv : x ∈ v
    · simp only [hv, if_true]; exact EvolL.reflL m
    · simp only [hv, if_false]
      cases hmx : mget m x with
      | none => exact EvolL.reflL m
      | some t =>
        cases hds : (dependentsOf todos x).isEmpty with
        | true =>
          simp only [hds, if_true, hmx]
          exact EvolL.writeL _ hmx
        | false =>
          simp only [hds, Bool.false_eq_true, if_false]
          rcases h2 : calcLDepsGen (fun d m' v' => calcL todos pe f d m' v')
              (dependentsOf todos x) m (x :: v) pe with ⟨m2, v2, eds⟩
          have hevol : EvolL m m2 := by
            have := hD (dependentsOf todos x) m (x :: v) pe
            rw [h2] at this; exact this
          dsimp only
          cases hm2 : mget m2 x with
          | none => simp only [hm2]; exact hevol
          | some t2 => simp only [hm2]; exact hevol.transL (EvolL.writeL eds hm2)

theorem calcLDeps_evol_of (todos : List Todo) (pe : Int) (f : Nat) :
    ∀ ds (m : TMap) v acc, EvolL m (calcLDeps todos pe f ds m v acc).1 :=
  calcLDepsGen_evol _ (fun x m v => calcL_evol todos pe f x m v)

/-- The field update of the marking loop on one record. -/
def mWrite (o : ScheduledTodo) (cp : List Int) : ScheduledTodo :=
  { o with isCritical := true, criticalPath := cp }

theorem mWrite_mWrite (o : ScheduledTodo) (cp : List Int) :
    mWrite (mWrite o cp) cp = mWrite o cp := by
  simp [mWrite]

/-- Exact characterization of the marking loop on each entry. -/
theorem mget_markCritical (m : TMap) (cp : List Int) (x : Int) :
    mget (markCritical m cp) x =
      match mget m x with
      | none => none
      | some t => if x ∈ cp then some (mWrite t cp) else some t := by
  have key : ∀ (l : List Int) (m : TMap),
      mget (l.foldl
        (fun m2 y =>
          match mget m2 y with
          | none => m2
          | some t => mset m2 y { t with isCritical := true, criticalPath := cp }) m) x =
      match mget m x with
      | none => none
      | some t => if x ∈ l then some (mWrite t cp) else some t := by
    intro l
    induction l with
    | nil =>
      intro m
      cases hm : mget m x <;> simp [hm]
    | cons y rest ih =>
      intro m
      rw [List.foldl_cons, ih]
      cases hmy : mget m y with
      | none =>
        simp only [hmy]
        cases hmx : mget m x with
        | none => simp
        | some t =>
          by_cases hxy : x = y
          · subst hxy; rw [hmx] at hmy; exact absurd hmy (by simp)
          · simp [hmx, hxy]
      | some t =>
        simp only [hmy]
        by_cases hxy : y = x
        · subst hxy
          rw [mget_mset_self, hmy]
          by_cases hr : y ∈ rest <;> simp [hr, mWrite, mWrite_mWrite]
        · rw [mget_mset_ne m _ hxy]
          cases hmx : mget m x with
          | none => simp
          | some u => simp [List.mem_cons, Ne.symm hxy]
  exact key cp m


/-! ## Shape invariants of the computed fields -/

/-- The per-entry arithmetic relations of the computed fields: the earliest
finish is the earliest start plus the duration, the latest start is the
latest finish minus the duration, slack is the clamped day difference of the
two start dates whenever both are present, and slack is never negative. -/
def ShapeOK (m : TMap) : Prop :=
  ∀ x t, mget m x = some t →
    (t.earliestFinishDate = t.earliestStartDate.map (fun e => addDays e t.duration)) ∧
    (t.latestStartDate = t.latestFinishDate.map (fun l => addDays l (-t.duration))) ∧
    (∀ a b, t.earliestStartDate = some a → t.latestStartDate = some b →
      t.slackMs = max 0 (b - a)) ∧
    0 ≤ t.slackMs

/-- Before the backward pass, no latest date is set. -/
def LsNone (m : TMap) : Prop :=
  ∀ x t, mget m x = some t →
    t.latestStartDate = none ∧ t.latestFinishDate = none

/-- Before the marking loop, no task is marked critical. -/
def CritClear (m : TMap) : Prop :=
  ∀ x t, mget m x = some t → t.isCritical = false ∧ t.criticalPath = []

/-- The fields never touched by the two passes or the marking loop. -/
def statPart (t : ScheduledTodo) :
    Int × String × Option Int × Bool × List Int × List Int × Int :=
  (t.id, t.title, t.dueDate, t.completed, t.dependencies, t.dependents, t.duration)

/-- The fields computed by the forward pass (also untouched later). -/
def fwdPart (t : ScheduledTodo) : Option Int × Option Int :=
  (t.earliestStartDate, t.earliestFinishDate)

/-- Pointwise preservation of the static fields. -/
def StatEq (m m' : TMap) : Prop :=
  ∀ x, (mget m' x).map statPart = (mget m x).map statPart

/-- Pointwise preservation of the forward fields. -/
def FwdEq (m m' : TMap) : Prop :=
  ∀ x, (mget m' x).map fwdPart = (mget m x).map fwdPart

theorem statPart_eWrite (o : ScheduledTodo) (es : Int) :
    statPart (eWrite o es) = statPart o := by
  simp [statPart, eWrite]

theorem statPart_updateSlack (o : ScheduledTodo) :
    statPart (updateSlack o) = statPart o := by
  cases h1 : o.earliestStartDate <;> cases h2 : o.latestStartDate <;>
    simp [statPart, updateSlack, h1, h2]

theorem statPart_lWrite (o : ScheduledTodo) (lf : Int) :
    statPart (lWrite o lf) = statPart o := by
  rw [lWrite, statPart_updateSlack]; simp [statPart]

theorem statPart_mWrite (o : ScheduledTodo) (cp : List Int) :
    statPart (mWrite o cp) = statPart o := by
  simp [statPart, mWrite]

theorem fwdPart_lWrite (o : ScheduledTodo) (lf : Int) :
    fwdPart (lWrite o lf) = fwdPart o := by
  cases h1 : o.earliestStartDate <;> simp [fwdPart, lWrite, updateSlack, h1]

theorem fwdPart_mWrite (o : ScheduledTodo) (cp : List Int) :
    fwdPart (mWrite o cp) = fwdPart o := by
  simp [fwdPart, mWrite]

theorem EvolE.statEqE {m m' : TMap} (h : EvolE m m') : StatEq m m' := by
  intro x
  rcases h x with he | ⟨o, es, ho, hn⟩
  · rw [he]
  · rw [ho, hn]; simp [statPart_eWrite]

theorem EvolL.statEqL {m m' : TMap} (h : EvolL m m') : StatEq m m' := by
  intro x
  rcases h x with he | ⟨o, lf, ho, hn⟩
  · rw [he]
  · rw [ho, hn]; simp [statPart_lWrite]

theorem EvolL.fwdEq {m m' : TMap} (h : EvolL m m') : FwdEq m m' := by
  intro x
  rcases h x with he | ⟨o, lf, ho, hn⟩
  · rw [he]
  · rw [ho, hn]; simp [fwdPart_lWrite]

theorem StatEq.reflS (m : TMap) : StatEq m m := fun _ => rfl

theorem StatEq.transS {m1 m2 m3 : TMap} (h12 : StatEq m1 m2) (h23 : StatEq m2 m3) :
    StatEq m1 m3 := fun x => (h23 x).trans (h12 x)

theorem StatEq.isSome {m m' : TMap} (h : StatEq m m') (x : Int) :
    (mget m' x).isSome = (mget m x).isSome := by
  have := h x
  cases hm : mget m x <;> cases hm' : mget m' x <;>
    simp [hm, hm'] at this ⊢

theorem EvolE.shapePresE {m m' : TMap} (h : EvolE m m')
    (hs : ShapeOK m) (hl : LsNone m) : ShapeOK m' ∧ LsNone m' := by
  constructor
  · intro x t ht
    rcases h x with he | ⟨o, es, ho, hn⟩
    · exact hs x t (he ▸ ht)
    · rw [ht] at hn
      obtain rfl : t = eWrite o es := Option.some.inj hn
      obtain ⟨hso1, hso2, hso3, hso4⟩ := hs x o ho
      obtain ⟨hln1, hln2⟩ := hl x o ho
      refine ⟨by simp [eWrite], ?_, ?_, ?_⟩
      · simp [eWrite, hln1, hln2]
      · intro a b ha hb
        simp [eWrite, hln1] at hb
      · simpa [eWrite] using hso4
  · intro x t ht
    rcases h x with he | ⟨o, es, ho, hn⟩
    · exact hl x t (he ▸ ht)
    · rw [ht] at hn
      obtain rfl : t = eWrite o es := Option.some.inj hn
      obtain ⟨hln1, hln2⟩ := hl x o ho
      simp [eWrite, hln1, hln2]

theorem EvolE.critClearE {m m' : TMap} (h : EvolE m m') (hc : CritClear m) :
    CritClear m' := by
  intro x t ht
  rcases h x with he | ⟨o, es, ho, hn⟩
  · exact hc x t (he ▸ ht)
  · rw [ht] at hn
    obtain rfl : t = eWrite o es := Option.some.inj hn
    obtain ⟨h1, h2⟩ := hc x o ho
    simp [eWrite, h1, h2]

theorem lWrite_fields (o : ScheduledTodo) (lf : Int) :
    (lWrite o lf).earliestStartDate = o.earliestStartDate ∧
    (lWrite o lf).earliestFinishDate = o.earliestFinishDate ∧
    (lWrite o lf).latestFinishDate = some lf ∧
    (lWrite o lf).latestStartDate = some (addDays lf (-o.duration)) ∧
    (lWrite o lf).duration = o.duration ∧
    (lWrite o lf).slackMs =
      (match o.earliestStartDate with
        | some a => max 0 (addDays lf (-o.duration) - a)
        | none => o.slackMs) := by
  cases h : o.earliestStartDate <;> simp [lWrite, updateSlack, h]

theorem EvolL.shapePresL {m m' : TMap} (h : EvolL m m') (hs : ShapeOK m) :
    ShapeOK m' := by
  intro x t ht
  rcases h x with he | ⟨o, lf, ho, hn⟩
  · exact hs x t (he ▸ ht)
  · rw [ht] at hn
    obtain rfl : t = lWrite o lf := Option.some.inj hn
    obtain ⟨hso1, hso2, hso3, hso4⟩ := hs x o ho
    obtain ⟨hf1, hf2, hf3, hf4, hf5, hf6⟩ := lWrite_fields o lf
    refine ⟨?_, ?_, ?_, ?_⟩
    · rw [hf1, hf2, hf5]; exact hso1
    · rw [hf3, hf4, hf5]; rfl
    · intro a b ha hb
      rw [hf1] at ha
      rw [hf4] at hb
      rw [hf6, ha]
      obtain rfl : addDays lf (-o.duration) = b := Option.some.inj hb
      rfl
    · rw [hf6]
      cases hes : o.earliestStartDate with
      | none => exact hso4
      | some e => exact le_max_left 0 _

theorem EvolL.critClearL {m m' : TMap} (h : EvolL m m') (hc : CritClear m) :
    CritClear m' := by
  intro x t ht
  rcases h x with he | ⟨o, lf, ho, hn⟩
  · exact hc x t (he ▸ ht)
  · rw [ht] at hn
    obtain rfl : t = lWrite o lf := Option.some.inj hn
    obtain ⟨h1, h2⟩ := hc x o ho
    cases hes : o.earliestStartDate <;>
      simp [lWrite, updateSlack, hes, h1, h2]

/-! ## Phase-level invariants -/

theorem foldl_pres {α β : Type} (P : β → Prop) (step : β → α → β) :
    ∀ (l : List α) (b : β), P b → (∀ b a, P b → P (step b a)) →
      P (l.foldl step b) := by
  intro l
  induction l with
  | nil => intro b hb _; exact hb
  | cons a rest ih => intro b hb h; exact ih (step b a) (h b a hb) h

theorem mget_buildMap_cases (todos : List Todo) (now : Int) (x : Int)
    (t : ScheduledTodo) (hx : mget (buildMap todos now) x = some t) :
    ∃ u ∈ todos, u.id = x ∧ t = initSched u now := by
  have aux : ∀ (l : List Todo) (m : TMap),
      mget (l.foldl (fun m u => mset m u.id (initSched u now)) m) x = some t →
      mget m x = some t ∨ ∃ u ∈ l, u.id = x ∧ t = initSched u now := by
    intro l
    induction l with
    | nil => intro m hm; exact Or.inl hm
    | cons u rest ih =>
      intro m hm
      rw [List.foldl_cons] at hm
      rcases ih (mset m u.id (initSched u now)) hm with h | ⟨w, hw, hwx, hwt⟩
      · by_cases hux : u.id = x
        · rw [hux, mget_mset_self] at h
          exact Or.inr ⟨u, List.mem_cons_self u rest, hux,
            (Option.some.inj h).symm⟩
        · rw [mget_mset_ne m _ hux] at h
          exact Or.inl h
      · exact Or.inr ⟨w, List.mem_cons_of_mem u hw, hwx, hwt⟩
  rcases aux todos [] hx with h | h
  · exact absurd h (by simp [mget])
  · exact h

theorem buildMap_domSome (todos : List Todo) (now : Int) :
    ∀ u ∈ todos, (mget (buildMap todos now) u.id).isSome := by
  have aux : ∀ (l : List Todo) (m : TMap) (x : Int),
      ((mget m x).isSome ∨ ∃ u ∈ l, u.id = x) →
      (mget (l.foldl (fun m u => mset m u.id (initSched u now)) m) x).isSome := by
    intro l
    induction l with
    | nil =>
      intro m x h
      rcases h with h | ⟨u, hu, _⟩
      · exact h
      · exact absurd hu (by simp)
    | cons u rest ih =>
      intro m x h
      rw [List.foldl_cons]
      apply ih
      rcases h with h | ⟨w, hw, hwx⟩
      · left
        by_cases hux : u.id = x
        · rw [hux, mget_mset_self]; rfl
        · rw [mget_mset_ne m _ hux]; exact h
      · rcases List.mem_cons.mp hw with rfl | hw'
        · left; rw [hwx, mget_mset_self]; rfl
        · exact Or.inr ⟨w, hw', hwx⟩
  intro u hu
  exact aux todos [] u.id (Or.inr ⟨u, hu, rfl⟩)

theorem buildMap_shape (todos : List Todo) (now : Int) :
    ShapeOK (buildMap todos now) ∧ LsNone (buildMap todos now) ∧
    CritClear (buildMap todos now) := by
  refine ⟨?_, ?_, ?_⟩ <;> intro x t ht <;>
    obtain ⟨u, _, _, rfl⟩ := mget_buildMap_cases todos now x t ht
  · refine ⟨rfl, rfl, ?_, le_refl 0⟩
    intro a b ha hb
    simp [initSched] at ha
  · exact ⟨rfl, rfl⟩
  · exact ⟨rfl, rfl⟩

theorem stageForward_inv (todos : List Todo) (now : Int) :
    ShapeOK (stageForward todos now) ∧ LsNone (stageForward todos now) ∧
    CritClear (stageForward todos now) ∧
    EvolE (buildMap todos now) (stageForward todos now) := by
  obtain ⟨hs0, hl0, hc0⟩ := buildMap_shape todos now
  rw [stageForward]
  exact foldl_pres
    (fun m => ShapeOK m ∧ LsNone m ∧ CritClear m ∧ EvolE (buildMap todos now) m)
    _ todos (buildMap todos now)
    ⟨hs0, hl0, hc0, EvolE.reflE _⟩
    (fun m t ⟨hs, hl, hc, he⟩ =>
      have hstep := calcE_evol (buildGraph todos) now (todos.length + 1) t.id m []
      ⟨(hstep.shapePresE hs hl).1, (hstep.shapePresE hs hl).2,
        hstep.critClearE hc, he.transE hstep⟩)

theorem stageBackward_inv (todos : List Todo) (now : Int) :
    ShapeOK (stageBackward todos now) ∧ CritClear (stageBackward todos now) ∧
    EvolL (stageForward todos now) (stageBackward todos now) := by
  obtain ⟨hs0, _, hc0, _⟩ := stageForward_inv todos now
  rw [stageBackward]
  exact foldl_pres
    (fun m => ShapeOK m ∧ CritClear m ∧ EvolL (stageForward todos now) m)
    _ todos (stageForward todos now)
    ⟨hs0, hc0, EvolL.reflL _⟩
    (fun m t ⟨hs, hc, he⟩ =>
      have hstep := calcL_evol todos (stagePE todos now) (todos.length + 1) t.id m []
      ⟨hstep.shapePresL hs, hstep.critClearL hc, he.transL hstep⟩)

/-! ## C2: the arithmetic relations between the computed fields -/

/-- C2: in the map returned by calculateCriticalPath, whenever the computed
fields of a task are set, the earliest finish equals the earliest start plus
the duration in days, the latest start equals the latest finish minus the
duration in days, the slack equals the clamped difference of latest start
and earliest start expressed in days, and the slack of every task is
non-negative. -/
theorem slackMs_to_days (t : ScheduledTodo) {z : Int} (h : t.slackMs = max 0 z) :
    t.slack = max 0 (((z : Int) : ℚ) / ((dayMs : Int) : ℚ)) := by
  have hd : (0 : ℚ) ≤ ((dayMs : Int) : ℚ) := by norm_num [dayMs]
  rw [ScheduledTodo.slack, h]
  push_cast
  rw [← max_div_div_right hd ((0 : ℚ)) _, zero_div]

theorem slack_nonneg_of_slackMs (t : ScheduledTodo) (h : 0 ≤ t.slackMs) :
    0 ≤ t.slack := by
  have hd : (0 : ℚ) ≤ ((dayMs : Int) : ℚ) := by norm_num [dayMs]
  exact div_nonneg (by exact_mod_cast h) hd

theorem shape_entry_days (t : ScheduledTodo)
    (h : (t.earliestFinishDate = t.earliestStartDate.map (fun e => addDays e t.duration)) ∧
      (t.latestStartDate = t.latestFinishDate.map (fun l => addDays l (-t.duration))) ∧
      (∀ a b, t.earliestStartDate = some a → t.latestStartDate = some b →
        t.slackMs = max 0 (b - a)) ∧
      0 ≤ t.slackMs) :
    (t.earliestFinishDate = t.earliestStartDate.map (fun e => addDays e t.duration)) ∧
    (t.latestStartDate = t.latestFinishDate.map (fun l => addDays l (-t.duration))) ∧
    (∀ a b, t.earliestStartDate = some a → t.latestStartDate = some b →
      t.slack = max 0 (((b - a : Int) : ℚ) / ((dayMs : Int) : ℚ))) ∧
    0 ≤ t.slack := by
  obtain ⟨h1, h2, h3, h4⟩ := h
  exact ⟨h1, h2, fun a b ha hb => slackMs_to_days t (h3 a b ha hb),
    slack_nonneg_of_slackMs t h4⟩

theorem criticalPath_field_relations (todos : List Todo) (now : Int) (x : Int)
    (t : ScheduledTodo) (hx : mget (calculateCriticalPath todos now) x = some t) :
    (t.earliestFinishDate = t.earliestStartDate.map (fun e => addDays e t.duration)) ∧
    (t.latestStartDate = t.latestFinishDate.map (fun l => addDays l (-t.duration))) ∧
    (∀ a b, t.earliestStartDate = some a → t.latestStartDate = some b →
      t.slack = max 0 (((b - a : Int) : ℚ) / ((dayMs : Int) : ℚ))) ∧
    0 ≤ t.slack := by
  obtain ⟨hb, -, -⟩ := stageBackward_inv todos now
  rw [calculateCriticalPath] at hx
  cases htr : stageTrace todos now with
  | none =>
    rw [htr] at hx
    exact shape_entry_days t (hb x t hx)
  | some cp =>
    rw [htr] at hx
    rw [mget_markCritical] at hx
    cases hm : mget (stageBackward todos now) x with
    | none => rw [hm] at hx; exact absurd hx (by simp)
    | some o =>
      rw [hm] at hx
      simp only at hx
      by_cases hcp : x ∈ cp
      · simp only [hcp, if_true] at hx
        obtain rfl : mWrite o cp = t := Option.some.inj hx
        exact shape_entry_days (mWrite o cp) (hb x o hm)
      · simp only [hcp, if_false] at hx
        obtain rfl : o = t := Option.some.inj hx
        exact shape_entry_days o (hb x o hm)

/-- A default record used to extract concrete witnesses from the map. -/
def defaultSched : ScheduledTodo :=
  initSched
    { id := 0, title := "", dueDate := none, completed := false,
      dependencies := [], dependents := [] } 0

/-- The concrete entry of task 1 in the schedule of cexC1Todos at time 0. -/
def c2WitnessEntry : ScheduledTodo :=
  (mget (calculateCriticalPath cexC1Todos 0) 1).getD defaultSched

/-- C2 witness: the relations hold on a concrete scheduled entry. -/
theorem criticalPath_field_relations_witness :
    mget (calculateCriticalPath cexC1Todos 0) 1 = some c2WitnessEntry ∧
    ((c2WitnessEntry.earliestFinishDate =
        c2WitnessEntry.earliestStartDate.map
          (fun e => addDays e c2WitnessEntry.duration)) ∧
      (c2WitnessEntry.latestStartDate =
        c2WitnessEntry.latestFinishDate.map
          (fun l => addDays l (-c2WitnessEntry.duration))) ∧
      (∀ a b, c2WitnessEntry.earliestStartDate = some a →
        c2WitnessEntry.latestStartDate = some b →
        c2WitnessEntry.slack = max 0 (((b - a : Int) : ℚ) / ((dayMs : Int) : ℚ))) ∧
      0 ≤ c2WitnessEntry.slack) :=
  ⟨by decide, criticalPath_field_relations cexC1Todos 0 1 c2WitnessEntry (by decide)⟩

/-! ## C10: the marking step is a frame on everything but the path -/

/-- C10: after calculateCriticalPath returns, every task whose id is not on
the traced critical path still has its initialized isCritical = false and
criticalPath = [], and its whole record is exactly the record produced by
the two passes (the marking loop mutates nothing outside the path); a task
on the traced path differs from its pre-marking record exactly in the
isCritical and criticalPath fields. -/
theorem criticalPath_marking_frame (todos : List Todo) (now : Int) (x : Int)
    (t : ScheduledTodo) (hx : mget (calculateCriticalPath todos now) x = some t) :
    (x ∉ (stageTrace todos now).getD [] →
      mget (stageBackward todos now) x = some t ∧
      t.isCritical = false ∧ t.criticalPath = []) ∧
    (∀ cp, stageTrace todos now = some cp → x ∈ cp →
      ∃ o, mget (stageBackward todos now) x = some o ∧ t = mWrite o cp) := by
  obtain ⟨-, hc, -⟩ := stageBackward_inv todos now
  rw [calculateCriticalPath] at hx
  cases htr : stageTrace todos now with
  | none =>
    rw [htr] at hx
    refine ⟨fun _ => ⟨hx, hc x t hx⟩, ?_⟩
    intro cp hcp
    exact absurd hcp (by simp)
  | some cp =>
    rw [htr] at hx
    rw [mget_markCritical] at hx
    cases hm : mget (stageBackward todos now) x with
    | none => rw [hm] at hx; exact absurd hx (by simp)
    | some o =>
      rw [hm] at hx
      simp only at hx
      by_cases hcp : x ∈ cp
      · simp only [hcp, if_true] at hx
        obtain rfl : mWrite o cp = t := Option.some.inj hx
        constructor
        · intro hnot
          exact absurd hcp (by simpa using hnot)
        · intro cp2 hcp2 _
          obtain rfl : cp = cp2 := Option.some.inj (htr ▸ hcp2)
          exact ⟨o, rfl, rfl⟩
      · simp only [hcp, if_false] at hx
        obtain rfl : o = t := Option.some.inj hx
        constructor
        · intro _
          exact ⟨rfl, hc x o hm⟩
        · intro cp2 hcp2 hx2
          obtain rfl : cp = cp2 := Option.some.inj (htr ▸ hcp2)
          exact absurd hx2 hcp

/-- The concrete entry of task 1 in the run on the cyclic input. -/
def cycEntry1 : ScheduledTodo :=
  (mget (calculateCriticalPath cexCycTodos 0) 1).getD defaultSched

/-- C10 witness: on the cyclic input the trace aborts, so task 1 is off the
(absent) path and keeps its pre-marking record with isCritical false. -/
theorem criticalPath_marking_frame_witness :
    mget (calculateCriticalPath cexCycTodos 0) 1 = some cycEntry1 ∧
    ((1 : Int) ∉ (stageTrace cexCycTodos 0).getD [] →
      mget (stageBackward cexCycTodos 0) 1 = some cycEntry1 ∧
      cycEntry1.isCritical = false ∧ cycEntry1.criticalPath = []) :=
  ⟨by decide, (criticalPath_marking_frame cexCycTodos 0 1 cycEntry1 (by decide)).1⟩

/-! ## Completeness: every task of the input ends with dates set -/

/-- The forward dates of the entry of x are present. -/
def FwdSet (m : TMap) (x : Int) : Prop :=
  ∃ u, mget m x = some u ∧
    u.earliestStartDate.isSome ∧ u.earliestFinishDate.isSome

/-- All four schedule dates of the entry of x are present. -/
def AllSet (m : TMap) (x : Int) : Prop :=
  ∃ u, mget m x = some u ∧
    u.earliestStartDate.isSome ∧ u.earliestFinishDate.isSome ∧
    u.latestStartDate.isSome ∧ u.latestFinishDate.isSome

theorem EvolE.fwdSetE {m m' : TMap} (h : EvolE m m') {x : Int}
    (hf : FwdSet m x) : FwdSet m' x := by
  obtain ⟨u, hu, h1, h2⟩ := hf
  rcases h x with he | ⟨o, es, ho, hn⟩
  · exact ⟨u, he.trans hu, h1, h2⟩
  · exact ⟨eWrite o es, hn, by simp [eWrite], by simp [eWrite]⟩

theorem EvolL.fwdSetL {m m' : TMap} (h : EvolL m m') {x : Int}
    (hf : FwdSet m x) : FwdSet m' x := by
  obtain ⟨u, hu, h1, h2⟩ := hf
  rcases h x with he | ⟨o, lf, ho, hn⟩
  · exact ⟨u, he.trans hu, h1, h2⟩
  · obtain rfl : u = o := by rw [hu] at ho; exact Option.some.inj ho
    have hfw := fwdPart_lWrite u lf
    rw [fwdPart, fwdPart] at hfw
    refine ⟨lWrite u lf, hn, ?_, ?_⟩
    · rw [show (lWrite u lf).earliestStartDate = u.earliestStartDate from
        congrArg Prod.fst hfw]
      exact h1
    · rw [show (lWrite u lf).earliestFinishDate = u.earliestFinishDate from
        congrArg Prod.snd hfw]
      exact h2

theorem EvolL.allSet {m m' : TMap} (h : EvolL m m') {x : Int}
    (hf : AllSet m x) : AllSet m' x := by
  obtain ⟨u, hu, h1, h2, h3, h4⟩ := hf
  rcases h x with he | ⟨o, lf, ho, hn⟩
  · exact ⟨u, he.trans hu, h1, h2, h3, h4⟩
  · obtain rfl : u = o := by rw [hu] at ho; exact Option.some.inj ho
    obtain ⟨hg1, hg2, hg3, hg4, -, -⟩ := lWrite_fields u lf
    exact ⟨lWrite u lf, hn, by rw [hg1]; exact h1, by rw [hg2]; exact h2,
      by rw [hg4]; rfl, by rw [hg3]; rfl⟩

theorem calcE_sets (g : Graph) (now : Int) (f : Nat) (x : Int) (m : TMap)
    (v : List Int) (hx : (mget m x).isSome) (hv : x ∉ v) :
    FwdSet (calcE g now (f + 1) x m v).1 x := by
  obtain ⟨t, ht⟩ := Option.isSome_iff_exists.mp hx
  simp only [calcE, hv, if_false, ht]
  cases hds : (depsOfG g x).isEmpty with
  | true =>
    simp only [hds, if_true]
    exact ⟨_, mget_mset_self m x _, rfl, rfl⟩
  | false =>
    simp only [hds, Bool.false_eq_true, if_false]
    rcases h2 : calcEDepsGen (fun d m' v' => calcE g now f d m' v')
        (depsOfG g x) m (x :: v) 0 with ⟨m2, v2, lf⟩
    have hevol : EvolE m m2 := by
      have := calcEDepsGen_evol (fun d m' v' => calcE g now f d m' v')
        (fun x m v => calcE_evol g now f x m v) (depsOfG g x) m (x :: v) 0
      rw [h2] at this; exact this
    have hsome : (mget m2 x).isSome := by
      rw [hevol.statEqE.isSome x, ht]; rfl
    obtain ⟨t2, ht2⟩ := Option.isSome_iff_exists.mp hsome
    dsimp only
    simp only [ht2]
    exact ⟨_, mget_mset_self m2 x _, rfl, rfl⟩

theorem calcL_sets (todos : List Todo) (pe : Int) (f : Nat) (x : Int)
    (m : TMap) (v : List Int) (hx : FwdSet m x) (hv : x ∉ v) :
    AllSet (calcL todos pe (f + 1) x m v).1 x := by
  obtain ⟨t, ht, hes, hef⟩ := hx
  simp only [calcL, hv, if_false, ht]
  cases hds : (dependentsOf todos x).isEmpty with
  | true =>
    simp only [hds, if_true]
    refine ⟨_, mget_mset_self m x _, ?_⟩
    obtain ⟨hg1, hg2, hg3, hg4, -, -⟩ := lWrite_fields t (t.dueDate.getD pe)
    rw [lWrite] at hg1 hg2 hg3 hg4
    exact ⟨by rw [hg1]; exact hes, by rw [hg2]; exact hef,
      by rw [hg4]; rfl, by rw [hg3]; rfl⟩
  | false =>
    simp only [hds, Bool.false_eq_true, if_false]
    rcases h2 : calcLDepsGen (fun d m' v' => calcL todos pe f d m' v')
        (dependentsOf todos x) m (x :: v) pe with ⟨m2, v2, eds⟩
    have hevol : EvolL m m2 := by
      have := calcLDepsGen_evol (fun d m' v' => calcL todos pe f d m' v')
        (fun x m v => calcL_evol todos pe f x m v) (dependentsOf todos x) m (x :: v) pe
      rw [h2] at this; exact this
    have hfw2 : FwdSet m2 x := hevol.fwdSetL ⟨t, ht, hes, hef⟩
    obtain ⟨t2, ht2, hes2, hef2⟩ := hfw2
    dsimp only
    simp only [ht2]
    refine ⟨_, mget_mset_self m2 x _, ?_⟩
    obtain ⟨hg1, hg2, hg3, hg4, -, -⟩ := lWrite_fields t2 eds
    rw [lWrite] at hg1 hg2 hg3 hg4
    exact ⟨by rw [hg1]; exact hes2, by rw [hg2]; exact hef2,
      by rw [hg4]; rfl, by rw [hg3]; rfl⟩

theorem stageForward_complete (todos : List Todo) (now : Int) :
    ∀ t ∈ todos, FwdSet (stageForward todos now) t.id := by
  have hpres : ∀ (l : List Todo) (m : TMap) (x : Int), FwdSet m x →
      FwdSet (l.foldl
        (fun m t => (calcE (buildGraph todos) now (todos.length + 1) t.id m []).1) m) x :=
    fun l m x hf =>
      foldl_pres (fun m => FwdSet m x) _ l m hf
        (fun m t hm => (calcE_evol (buildGraph todos) now (todos.length + 1) t.id m []).fwdSetE hm)
  have main : ∀ (l : List Todo) (m : TMap),
      (∀ u ∈ l, (mget m u.id).isSome) →
      ∀ u ∈ l, FwdSet (l.foldl
        (fun m t => (calcE (buildGraph todos) now (todos.length + 1) t.id m []).1) m) u.id := by
    intro l
    induction l with
    | nil => intro m _ u hu; exact absurd hu (by simp)
    | cons t rest ih =>
      intro m hdm u hu
      rw [List.foldl_cons]
      rcases List.mem_cons.mp hu with rfl | hu'
      · exact hpres rest _ _
          (calcE_sets (buildGraph todos) now todos.length u.id m []
            (hdm u (List.mem_cons_self u rest)) (by simp))
      · refine ih _ ?_ u hu'
        intro w hw
        rw [(calcE_evol (buildGraph todos) now (todos.length + 1) t.id m []).statEqE.isSome w.id]
        exact hdm w (List.mem_cons_of_mem t hw)
  intro t ht
  simp only [stageForward]
  exact main todos (buildMap todos now)
    (fun u hu => buildMap_domSome todos now u hu) t ht

theorem stageBackward_complete (todos : List Todo) (now : Int) :
    ∀ t ∈ todos, AllSet (stageBackward todos now) t.id := by
  have hpres : ∀ (l : List Todo) (m : TMap) (x : Int), AllSet m x →
      AllSet (l.foldl
        (fun m t => (calcL todos (stagePE todos now) (todos.length + 1) t.id m []).1) m) x :=
    fun l m x hf =>
      foldl_pres (fun m => AllSet m x) _ l m hf
        (fun m t hm =>
          (calcL_evol todos (stagePE todos now) (todos.length + 1) t.id m []).allSet hm)
  have main : ∀ (l : List Todo) (m : TMap),
      (∀ u ∈ l, FwdSet m u.id) →
      ∀ u ∈ l, AllSet (l.foldl
        (fun m t => (calcL todos (stagePE todos now) (todos.length + 1) t.id m []).1) m) u.id := by
    intro l
    induction l with
    | nil => intro m _ u hu; exact absurd hu (by simp)
    | cons t rest ih =>
      intro m hdm u hu
      rw [List.foldl_cons]
      rcases List.mem_cons.mp hu with rfl | hu'
      · exact hpres rest _ _
          (calcL_sets todos (stagePE todos now) todos.length u.id m []
            (hdm u (List.mem_cons_self u rest)) (by simp))
      · refine ih _ ?_ u hu'
        intro w hw
        exact (calcL_evol todos (stagePE todos now) (todos.length + 1) t.id m []).fwdSetL
          (hdm w (List.mem_cons_of_mem t hw))
  intro t ht
  simp only [stageBackward]
  exact main todos (stageForward todos now)
    (fun u hu => stageForward_complete todos now u hu) t ht

theorem markCritical_allSet (m : TMap) (cp : List Int) (x : Int)
    (h : AllSet m x) : AllSet (markCritical m cp) x := by
  obtain ⟨u, hu, h1, h2, h3, h4⟩ := h
  rw [AllSet, mget_markCritical, hu]
  by_cases hcp : x ∈ cp
  · simp only [hcp, if_true]
    exact ⟨mWrite u cp, rfl, h1, h2, h3, h4⟩
  · simp only [hcp, if_false]
    exact ⟨u, rfl, h1, h2, h3, h4⟩

theorem calculateCriticalPath_allSet (todos : List Todo) (now : Int) :
    ∀ t ∈ todos, AllSet (calculateCriticalPath todos now) t.id := by
  intro t ht
  rw [calculateCriticalPath]
  cases htr : stageTrace todos now with
  | none => exact stageBackward_complete todos now t ht
  | some cp => exact markCritical_allSet _ cp _ (stageBackward_complete todos now t ht)

/-! ## C6: behavior on cyclic inputs -/

/-- The backward-pass entries of the cyclic input used below. -/
def cycB1 : ScheduledTodo :=
  (mget (stageBackward cexCycTodos 0) 1).getD defaultSched

/-- The backward-pass entry of task 2 of the cyclic input. -/
def cycB2 : ScheduledTodo :=
  (mget (stageBackward cexCycTodos 0) 2).getD defaultSched

/-- The backward-pass entry of task 3 of the cyclic input. -/
def cycB3 : ScheduledTodo :=
  (mget (stageBackward cexCycTodos 0) 3).getD defaultSched

/-- On the cyclic input the unguarded trace from the zero-slack end node 3
runs into the 1-2 cycle of zero-slack dependencies and never reaches a
source, whatever recursion bound it is given. -/
theorem trace_cyc_diverges :
    ∀ fuel, tracePathAux (stageBackward cexCycTodos 0) fuel 3 = none := by
  have key : ∀ f, tracePathAux (stageBackward cexCycTodos 0) f 1 = none ∧
      tracePathAux (stageBackward cexCycTodos 0) f 2 = none := by
    intro f
    induction f with
    | zero => exact ⟨rfl, rfl⟩
    | succ f ih =>
      have h1 : mget (stageBackward cexCycTodos 0) 1 = some cycB1 := by decide
      have h2 : mget (stageBackward cexCycTodos 0) 2 = some cycB2 := by decide
      have hf1 : cycB1.dependencies.find?
          (zeroSlackPred (stageBackward cexCycTodos 0)) = some 2 := by decide
      have hf2 : cycB2.dependencies.find?
          (zeroSlackPred (stageBackward cexCycTodos 0)) = some 1 := by decide
      constructor
      · simp only [tracePathAux, h1, hf1, ih.2]; rfl
      · simp only [tracePathAux, h2, hf2, ih.1]; rfl
  intro fuel
  cases fuel with
  | zero => rfl
  | succ f =>
    have h3 : mget (stageBackward cexCycTodos 0) 3 = some cycB3 := by decide
    have hf3 : cycB3.dependencies.find?
        (zeroSlackPred (stageBackward cexCycTodos 0)) = some 1 := by decide
    simp only [tracePathAux, h3, hf3, (key f).1]; rfl

/-- C6 counterexample: on the cyclic input cexCycTodos the zero-slack trace
aborts (the source recurses without a visited guard until the caught stack
overflow), and every task in the returned map has all four schedule dates
set: no task caught in the cycle is left with unset schedule fields, contrary
to the claim. -/
theorem criticalPath_cycle_fields_set_cex :
    stageTrace cexCycTodos 0 = none ∧
    (calculateCriticalPath cexCycTodos 0).all (fun p =>
      p.2.earliestStartDate.isSome && p.2.earliestFinishDate.isSome &&
      p.2.latestStartDate.isSome && p.2.latestFinishDate.isSome) = true := by
  decide

/-- C6 (amended): the model of calculateCriticalPath is a total function and
every supplied task ends with all four schedule dates set, also on cyclic
inputs (the epoch fallback produces values; fields are not left unset); when
the unguarded zero-slack trace fails to terminate, which the enclosing
try/catch of the source turns into a silently caught stack overflow rendered
here as stageTrace = none, the call still returns, with the unmarked
schedule: no task is marked critical.  On the concrete cyclic input
cexCycTodos the trace indeed fails for every recursion bound. -/
theorem criticalPath_cycle_behavior (todos : List Todo) (now : Int) :
    (∀ t ∈ todos, AllSet (calculateCriticalPath todos now) t.id) ∧
    (stageTrace todos now = none →
      ∀ x u, mget (calculateCriticalPath todos now) x = some u →
        u.isCritical = false ∧ u.criticalPath = []) ∧
    (∀ fuel, tracePathAux (stageBackward cexCycTodos 0) fuel 3 = none) := by
  refine ⟨calculateCriticalPath_allSet todos now, ?_, trace_cyc_diverges⟩
  intro htr x u hx
  obtain ⟨-, hc, -⟩ := stageBackward_inv todos now
  rw [calculateCriticalPath, htr] at hx
  exact hc x u hx

/-- C6 witness: the amended statement evaluated on the cyclic input. -/
theorem criticalPath_cycle_behavior_witness :
    ((⟨1, "a", none, false, [2], [2, 3]⟩ : Todo) ∈ cexCycTodos ∧
      AllSet (calculateCriticalPath cexCycTodos 0) 1) ∧
    (stageTrace cexCycTodos 0 = none ∧
      mget (calculateCriticalPath cexCycTodos 0) 1 = some cycEntry1 ∧
      cycEntry1.isCritical = false ∧ cycEntry1.criticalPath = []) := by
  constructor
  · exact ⟨by decide,
      (criticalPath_cycle_behavior cexCycTodos 0).1
        ⟨1, "a", none, false, [2], [2, 3]⟩ (by decide)⟩
  · refine ⟨by decide, by decide, ?_⟩
    exact (criticalPath_cycle_behavior cexCycTodos 0).2.1 (by decide) 1
      cycEntry1 (by decide)

/-! ## Input validity: the contract of the task store -/

/-- Task ids are unique. -/
def NodupIds (todos : List Todo) : Prop :=
  (todos.map (fun t => t.id)).Nodup

/-- Dependent lists are the exact inverse of dependency lists. -/
def ConsistentLists (todos : List Todo) : Prop :=
  ∀ t ∈ todos, ∀ u ∈ todos, (t.id ∈ u.dependencies ↔ u.id ∈ t.dependents)

/-- The dependency relation is acyclic, exhibited by a rank function that
strictly decreases along every dependency edge. -/
def AcyclicRank (todos : List Todo) (rank : Int → Nat) : Prop :=
  ∀ t ∈ todos, ∀ d ∈ t.dependencies, rank d < rank t.id

/-- Every dependency reference names a supplied task. -/
def RefsClosed (todos : List Todo) : Prop :=
  ∀ t ∈ todos, ∀ d ∈ t.dependencies, ∃ u ∈ todos, u.id = d

theorem mget_foldl_frame {α : Type} (F : Todo → α) (l : List Todo)
    (m : List (Int × α)) (x : Int) (h : ∀ u ∈ l, u.id ≠ x) :
    mget (l.foldl (fun m u => mset m u.id (F u)) m) x = mget m x := by
  induction l generalizing m with
  | nil => rfl
  | cons u rest ih =>
    rw [List.foldl_cons, ih _ (fun w hw => h w (List.mem_cons_of_mem u hw)),
      mget_mset_ne m _ (h u (List.mem_cons_self u rest))]

theorem mget_foldl_mset_nodup {α : Type} (F : Todo → α) (todos : List Todo)
    (hnd : NodupIds todos) {t : Todo} (ht : t ∈ todos) :
    mget (todos.foldl (fun m u => mset m u.id (F u)) []) t.id = some (F t) := by
  have aux : ∀ (l : List Todo) (m : List (Int × α)),
      (l.map (fun u => u.id)).Nodup → t ∈ l →
      mget (l.foldl (fun m u => mset m u.id (F u)) m) t.id = some (F t) := by
    intro l
    induction l with
    | nil => intro m _ htl; exact absurd htl (by simp)
    | cons u rest ih =>
      intro m hnd2 htl
      rw [List.map_cons, List.nodup_cons] at hnd2
      rcases List.mem_cons.mp htl with rfl | htl'
      · rw [List.foldl_cons,
          mget_foldl_frame F rest _ _ (fun w hw hwx => hnd2.1 (by
            rw [← hwx]
            exact List.mem_map_of_mem (fun u => u.id) hw)),
          mget_mset_self]
      · exact ih _ hnd2.2 htl'
  exact aux todos [] hnd ht

theorem mget_buildMap_nodup (todos : List Todo) (now : Int)
    (hnd : NodupIds todos) {t : Todo} (ht : t ∈ todos) :
    mget (buildMap todos now) t.id = some (initSched t now) :=
  mget_foldl_mset_nodup (fun u => initSched u now) todos hnd ht

theorem mget_buildGraph_nodup (todos : List Todo)
    (hnd : NodupIds todos) {t : Todo} (ht : t ∈ todos) :
    mget (buildGraph todos) t.id = some (jsDedup t.dependencies) :=
  mget_foldl_mset_nodup (fun u => jsDedup u.dependencies) todos hnd ht

/-! ## Refined evolution: what value each branch writes

EvolER refines EvolE with the fact that a forward write on a node whose
dependency set is empty always writes the reference instant; EvolLR refines
EvolL with the fact that a backward write on a node with no derived
dependents always writes its due date or the project end date. -/

/-- Forward evolution, remembering the dependency-free write value. -/
def EvolER (g : Graph) (now : Int) (m m' : TMap) : Prop :=
  ∀ y, mget m' y = mget m y ∨
    ∃ o es, mget m y = some o ∧ mget m' y = some (eWrite o es) ∧
      ((depsOfG g y).isEmpty = true → es = now)

theorem EvolER.reflER (g : Graph) (now : Int) (m : TMap) : EvolER g now m m :=
  fun _ => Or.inl rfl

theorem EvolER.transER {g : Graph} {now : Int} {m1 m2 m3 : TMap}
    (h12 : EvolER g now m1 m2) (h23 : EvolER g now m2 m3) :
    EvolER g now m1 m3 := by
  intro y
  rcases h23 y with h | ⟨o, es, ho, hn, hc⟩
  · rcases h12 y with h' | ⟨o, es, ho, hn, hc⟩
    · exact Or.inl (h.trans h')
    · exact Or.inr ⟨o, es, ho, h.trans hn, hc⟩
  · rcases h12 y with h' | ⟨o', es', ho', hn', hc'⟩
    · exact Or.inr ⟨o, es, h'.symm.trans ho, hn, hc⟩
    · have heq : o = eWrite o' es' := by
        rw [ho] at hn'; exact Option.some.inj hn'
      exact Or.inr ⟨o', es, ho', by rw [hn, heq, eWrite_eWrite], hc⟩

theorem EvolER.writeER {g : Graph} {now : Int} {m : TMap} {x : Int}
    {t : ScheduledTodo} {es : Int}
    (hc : (depsOfG g x).isEmpty = true → es = now)
    (ht : mget m x = some t) : EvolER g now m (mset m x (eWrite t es)) := by
  intro y
  by_cases h : x = y
  · subst h; exact Or.inr ⟨t, es, ht, by rw [mget_mset_self], hc⟩
  · exact Or.inl (mget_mset_ne m _ h)

theorem calcEDepsGen_evolR (g : Graph) (now : Int)
    (visit : Int → TMap → List Int → TMap × List Int)
    (hE : ∀ x m v, EvolER g now m (visit x m v).1) :
    ∀ ds (m : TMap) v acc, EvolER g now m (calcEDepsGen visit ds m v acc).1 := by
  intro ds
  induction ds with
  | nil => intro m v acc; simp only [calcEDepsGen]; exact EvolER.reflER g now m
  | cons d rest ih =>
    intro m v acc
    simp only [calcEDepsGen]
    cases hd : mget m d with
    | none => exact ih m v acc
    | some dep =>
      by_cases hif : dep.earliestFinishDate.isNone
      · simp only [hif, if_true]
        exact (hE d m v).transER (ih _ _ _)
      · simp only [hif, if_false]
        exact ih _ _ _

theorem calcE_evolR (g : Graph) (now : Int) :
    ∀ f x (m : TMap) v, EvolER g now m (calcE g now f x m v).1 := by
  intro f
  induction f with
  | zero => intro x m v; simp only [calcE]; exact EvolER.reflER g now m
  | succ f ih =>
    intro x m v
    have hD := calcEDepsGen_evolR g now (fun d m' v' => calcE g now f d m' v') ih
    simp only [calcE]
    by_cases hv : x ∈ v
    · simp only [hv, if_true]; exact EvolER.reflER g now m
    · simp only [hv, if_false]
      cases hmx : mget m x with
      | none => exact EvolER.reflER g now m
      | some t =>
        cases hds : (depsOfG g x).isEmpty with
        | true =>
          simp only [hds, if_true, hmx]
          exact EvolER.writeER (fun _ => rfl) hmx
        | false =>
          simp only [hds, Bool.false_eq_true, if_false]
          rcases h2 : calcEDepsGen (fun d m' v' => calcE g now f d m' v')
              (depsOfG g x) m (x :: v) 0 with ⟨m2, v2, lf⟩
          have hevol : EvolER g now m m2 := by
            have := hD (depsOfG g x) m (x :: v) 0
            rw [h2] at this; exact this
          dsimp only
          cases hm2 : mget m2 x with
          | none => simp only [hm2]; exact hevol
          | some t2 =>
            simp only [hm2]
            refine hevol.transER (EvolER.writeER ?_ hm2)
            intro hemp
            exact absurd (hds.symm.trans hemp) (by simp)

/-- The due date is untouched by a backward write. -/
theorem lWrite_dueDate (o : ScheduledTodo) (lf : Int) :
    (lWrite o lf).dueDate = o.dueDate := by
  cases h : o.earliestStartDate <;> simp [lWrite, updateSlack, h]

/-- Backward evolution, remembering the dependent-free write value. -/
def EvolLR (todos : List Todo) (pe : Int) (m m' : TMap) : Prop :=
  ∀ y, mget m' y = mget m y ∨
    ∃ o lf, mget m y = some o ∧ mget m' y = some (lWrite o lf) ∧
      ((dependentsOf todos y).isEmpty = true → lf = o.dueDate.getD pe)

theorem EvolLR.reflLR (todos : List Todo) (pe : Int) (m : TMap) :
    EvolLR todos pe m m := fun _ => Or.inl rfl

theorem EvolLR.transLR {todos : List Todo} {pe : Int} {m1 m2 m3 : TMap}
    (h12 : EvolLR todos pe m1 m2) (h23 : EvolLR todos pe m2 m3) :
    EvolLR todos pe m1 m3 := by
  intro y
  rcases h23 y with h | ⟨o, lf, ho, hn, hc⟩
  · rcases h12 y with h' | ⟨o, lf, ho, hn, hc⟩
    · exact Or.inl (h.trans h')
    · exact Or.inr ⟨o, lf, ho, h.trans hn, hc⟩
  · rcases h12 y with h' | ⟨o', lf', ho', hn', hc'⟩
    · exact Or.inr ⟨o, lf, h'.symm.trans ho, hn, hc⟩
    · have heq : o = lWrite o' lf' := by
        rw [ho] at hn'; exact Option.some.inj hn'
      refine Or.inr ⟨o', lf, ho', by rw [hn, heq, lWrite_lWrite], ?_⟩
      intro hemp
      rw [hc hemp, heq, lWrite_dueDate]

theorem EvolLR.writeLR {todos : List Todo} {pe : Int} {m : TMap} {x : Int}
    {t : ScheduledTodo} {lf : Int}
    (hc : (dependentsOf todos x).isEmpty = true → lf = t.dueDate.getD pe)
    (ht : mget m x = some t) : EvolLR todos pe m (mset m x (lWrite t lf)) := by
  intro y
  by_cases h : x = y
  · subst h; exact Or.inr ⟨t, lf, ht, by rw [mget_mset_self], hc⟩
  · exact Or.inl (mget_mset_ne m _ h)

theorem calcLDepsGen_evolR (todos : List Todo) (pe : Int)
    (visit : Int → TMap → List Int → TMap × List Int)
    (hL : ∀ x m v, EvolLR todos pe m (visit x m v).1) :
    ∀ ds (m : TMap) v acc, EvolLR todos pe m (calcLDepsGen visit ds m v acc).1 := by
  intro ds
  induction ds with
  | nil => intro m v acc; simp only [calcLDepsGen]; exact EvolLR.reflLR todos pe m
  | cons d rest ih =>
    intro m v acc
    simp only [calcLDepsGen]
    cases hd : mget m d with
    | none => exact ih m v acc
    | some dep =>
      by_cases hif : dep.latestStartDate.isNone
      · simp only [hif, if_true]
        exact (hL d m v).transLR (ih _ _ _)
      · simp only [hif, if_false]
        exact ih _ _ _

theorem calcL_evolR (todos : List Todo) (pe : Int) :
    ∀ f x (m : TMap) v, EvolLR todos pe m (calcL todos pe f x m v).1 := by
  intro f
  induction f with
  | zero => intro x m v; simp only [calcL]; exact EvolLR.reflLR todos pe m
  | succ f ih =>
    intro x m v
    have hD := calcLDepsGen_evolR todos pe (fun d m' v' => calcL todos pe f d m' v') ih
    simp only [calcL]
    by_cases hv : x ∈ v
    · simp only [hv, if_true]; exact EvolLR.reflLR todos pe m
    · simp only [hv, if_false]
      cases hmx : mget m x with
      | none => exact EvolLR.reflLR todos pe m
      | some t =>
        cases hds : (dependentsOf todos x).isEmpty with
        | true =>
          simp only [hds, if_true, hmx]
          exact EvolLR.writeLR (fun _ => rfl) hmx
        | false =>
          simp only [hds, Bool.false_eq_true, if_false]
          rcases h2 : calcLDepsGen (fun d m' v' => calcL todos pe f d m' v')
              (dependentsOf todos x) m (x :: v) pe with ⟨m2, v2, eds⟩
          have hevol : EvolLR todos pe m m2 := by
            have := hD (dependentsOf todos x) m (x :: v) pe
            rw [h2] at this; exact this
          dsimp only
          cases hm2 : mget m2 x with
          | none => simp only [hm2]; exact hevol
          | some t2 =>
            simp only [hm2]
            refine hevol.transLR (EvolLR.writeLR ?_ hm2)
            intro hemp
            exact absurd (hds.symm.trans hemp) (by simp)

theorem stageForward_evolR (todos : List Todo) (now : Int) :
    EvolER (buildGraph todos) now (buildMap todos now) (stageForward todos now) := by
  simp only [stageForward]
  exact foldl_pres (fun m => EvolER (buildGraph todos) now (buildMap todos now) m)
    _ todos (buildMap todos now) (EvolER.reflER _ _ _)
    (fun m t h =>
      h.transER (calcE_evolR (buildGraph todos) now (todos.length + 1) t.id m []))

theorem stageBackward_evolR (todos : List Todo) (now : Int) :
    EvolLR todos (stagePE todos now) (stageForward todos now)
      (stageBackward todos now) := by
  simp only [stageBackward]
  exact foldl_pres
    (fun m => EvolLR todos (stagePE todos now) (stageForward todos now) m)
    _ todos (stageForward todos now) (EvolLR.reflLR _ _ _)
    (fun m t h =>
      h.transLR (calcL_evolR todos (stagePE todos now) (todos.length + 1) t.id m []))

/-! ## C7: anchors of the boundary tasks -/

/-- The fields computed by the backward pass. -/
def bwdPart (t : ScheduledTodo) : Option Int × Option Int :=
  (t.latestStartDate, t.latestFinishDate)

theorem markCritical_parts (m : TMap) (cp : List Int) (x : Int) :
    (mget (markCritical m cp) x).map fwdPart = (mget m x).map fwdPart ∧
    (mget (markCritical m cp) x).map bwdPart = (mget m x).map bwdPart := by
  constructor <;> rw [mget_markCritical] <;> cases h : mget m x <;>
    by_cases hcp : x ∈ cp <;> simp [hcp, fwdPart, bwdPart, mWrite]

theorem criticalPath_parts (todos : List Todo) (now : Int) (x : Int) :
    (mget (calculateCriticalPath todos now) x).map fwdPart
      = (mget (stageBackward todos now) x).map fwdPart ∧
    (mget (calculateCriticalPath todos now) x).map bwdPart
      = (mget (stageBackward todos now) x).map bwdPart := by
  rw [calculateCriticalPath]
  cases htr : stageTrace todos now with
  | none => exact ⟨rfl, rfl⟩
  | some cp => exact markCritical_parts _ cp x

/-- The derived dependents of a task whose input dependent list is empty are
empty, on mutually consistent inputs. -/
theorem dependentsOf_nil_of_consistent (todos : List Todo)
    (hcons : ConsistentLists todos) {t : Todo} (ht : t ∈ todos)
    (hdept : t.dependents = []) : dependentsOf todos t.id = [] := by
  rw [dependentsOf, List.map_eq_nil_iff, List.filter_eq_nil_iff]
  intro u hu hcon
  have : t.id ∈ u.dependencies := by
    simpa using hcon
  have := (hcons t ht u hu).mp this
  rw [hdept] at this
  exact absurd this (by simp)

/-- C7: on an input with unique ids, acyclic dependencies and mutually
consistent dependency and dependent lists, every task with no dependencies
has its earliest start equal to the reference instant of the run, and every
task with no dependents has its latest finish equal to its due date when
present and to the project end date otherwise. -/
theorem criticalPath_boundary_anchors (todos : List Todo) (now : Int)
    (rank : Int → Nat) (hnd : NodupIds todos) (hac : AcyclicRank todos rank)
    (hcons : ConsistentLists todos) :
    ∀ t ∈ todos, ∀ u, mget (calculateCriticalPath todos now) t.id = some u →
      (t.dependencies = [] → u.earliestStartDate = some now) ∧
      (t.dependents = [] →
        u.latestFinishDate = some (t.dueDate.getD (stagePE todos now))) := by
  intro t ht u hu
  -- the backward-pass entry behind u
  obtain ⟨w2, hw2, hes2, hef2, hls2, hlf2⟩ :
      AllSet (stageBackward todos now) t.id := stageBackward_complete todos now t ht
  have hparts := criticalPath_parts todos now t.id
  have hfwdeq : fwdPart u = fwdPart w2 := by
    have := hparts.1
    rw [hu, hw2] at this
    simpa using this
  have hbwdeq : bwdPart u = bwdPart w2 := by
    have := hparts.2
    rw [hu, hw2] at this
    simpa using this
  -- the forward-pass entry behind w2
  have hbase := mget_buildMap_nodup todos now hnd ht
  have hfwdR := stageForward_evolR todos now
  have hbwdR := stageBackward_evolR todos now
  constructor
  · -- no dependencies: earliest start is the reference instant
    intro hdeps
    have hgr : depsOfG (buildGraph todos) t.id = [] := by
      rw [depsOfG, mget_buildGraph_nodup todos hnd ht, hdeps]
      rfl
    -- the forward entry of t.id
    obtain ⟨w1, hw1, hes1s, -⟩ : FwdSet (stageForward todos now) t.id :=
      stageForward_complete todos now t ht
    have hes1 : w1.earliestStartDate = some now := by
      rcases hfwdR t.id with he | ⟨o, es, ho, hn, hc⟩
      · rw [hw1, hbase] at he
        have : w1 = initSched t now := Option.some.inj he
        rw [this] at hes1s
        exact absurd hes1s (by simp [initSched])
      · rw [hw1] at hn
        obtain rfl : w1 = eWrite o es := Option.some.inj hn
        rw [show es = now from hc (by rw [hgr]; rfl)]
        simp [eWrite]
    -- transport to the backward entry, then to the final entry
    have hesfinal : w2.earliestStartDate = some now := by
      obtain ⟨-, -, hevl⟩ := stageBackward_inv todos now
      have := hevl.fwdEq t.id
      rw [hw2, hw1] at this
      have hfp : fwdPart w2 = fwdPart w1 := by simpa using this
      rw [show w2.earliestStartDate = (fwdPart w2).1 from rfl, hfp]
      exact hes1
    rw [show u.earliestStartDate = (fwdPart u).1 from rfl, hfwdeq]
    exact hesfinal
  · -- no dependents: latest finish is the due date or the project end
    intro hdept
    have hdd : dependentsOf todos t.id = [] :=
      dependentsOf_nil_of_consistent todos hcons ht hdept
    -- the forward entry of t.id has no latest dates yet
    obtain ⟨hsF, hlF, -, -⟩ := stageForward_inv todos now
    rcases hbwdR t.id with he | ⟨o, lf, ho, hn, hc⟩
    · -- impossible: the backward entry has its latest finish set
      rw [hw2] at he
      have := (hlF t.id w2 he.symm).2
      rw [this] at hlf2
      exact absurd hlf2 (by simp)
    · rw [hw2] at hn
      obtain rfl : w2 = lWrite o lf := Option.some.inj hn
      have hlfval : lf = o.dueDate.getD (stagePE todos now) := hc (by rw [hdd]; rfl)
      -- the due date of the forward entry is the due date of the input task
      have hdue : o.dueDate = t.dueDate := by
        rcases hfwdR t.id with he' | ⟨o', es', ho', hn', -⟩
        · rw [ho, hbase] at he'
          have ho2 : o = initSched t now := Option.some.inj he'
          rw [ho2]; rfl
        · rw [ho] at hn'
          obtain rfl : o = eWrite o' es' := Option.some.inj hn'
          have ho2 : o' = initSched t now := by
            rw [hbase] at ho'
            exact (Option.some.inj ho').symm
          rw [show (eWrite o' es').dueDate = o'.dueDate from rfl, ho2]; rfl
    -- read off the latest finish of the written record
      obtain ⟨-, -, hg3, -, -, -⟩ := lWrite_fields o lf
      rw [show u.latestFinishDate = (bwdPart u).2 from rfl, hbwdeq,
        show (bwdPart (lWrite o lf)).2 = (lWrite o lf).latestFinishDate from rfl,
        hg3, hlfval, hdue]

/-! ## C8: degenerate inputs -/

theorem calcDuration_ge_one (due : Option Int) (now : Int) :
    1 ≤ calculateDuration due now := by
  match due with
  | none => exact le_refl 1
  | some d => exact le_max_left 1 _

theorem ceilDiv_mul_self (j : Int) : ceilDiv (dayMs * j) dayMs = j := by
  rw [ceilDiv, show -(dayMs * j) = dayMs * (-j) by ring]
  change -(dayMs * -j / dayMs) = j
  rw [Int.mul_ediv_cancel_left _ (by decide : dayMs ≠ 0)]
  ring

/-- Static fields of a forward-pass entry agree with the initial record. -/
theorem stageForward_statPart (todos : List Todo) (now : Int)
    (hnd : NodupIds todos) {t : Todo} (ht : t ∈ todos) :
    ∃ w, mget (stageForward todos now) t.id = some w ∧
      statPart w = statPart (initSched t now) := by
  obtain ⟨-, -, -, hev⟩ := stageForward_inv todos now
  have hbase := mget_buildMap_nodup todos now hnd ht
  have hst := hev.statEqE t.id
  rw [hbase] at hst
  cases hw : mget (stageForward todos now) t.id with
  | none => rw [hw] at hst; exact absurd hst (by simp)
  | some w =>
    rw [hw] at hst
    exact ⟨w, rfl, by simpa using hst⟩

/-- A task with no dependencies has its earliest start written as the
reference instant by the forward pass. -/
theorem stageForward_es_now (todos : List Todo) (now : Int)
    (hnd : NodupIds todos) {t : Todo} (ht : t ∈ todos)
    (hdeps : t.dependencies = []) :
    ∃ w, mget (stageForward todos now) t.id = some w ∧
      w.earliestStartDate = some now := by
  have hbase := mget_buildMap_nodup todos now hnd ht
  obtain ⟨w, hw, hesS, -⟩ := stageForward_complete todos now t ht
  refine ⟨w, hw, ?_⟩
  have hgr : depsOfG (buildGraph todos) t.id = [] := by
    rw [depsOfG, mget_buildGraph_nodup todos hnd ht, hdeps]
    rfl
  rcases stageForward_evolR todos now t.id with he | ⟨o, es, ho, hn, hc⟩
  · rw [hw, hbase] at he
    have hwi : w = initSched t now := Option.some.inj he
    rw [hwi] at hesS
    exact absurd hesS (by simp [initSched])
  · rw [hw] at hn
    obtain rfl : w = eWrite o es := Option.some.inj hn
    rw [show es = now from hc (by rw [hgr]; rfl)]
    simp [eWrite]

/-- A task with no derived dependents receives exactly one kind of backward
write: its latest finish becomes its due date or the project end date. -/
theorem stageBackward_lfWrite (todos : List Todo) (now : Int)
    {t : Todo} (ht : t ∈ todos) (hdd : dependentsOf todos t.id = []) :
    ∃ o, mget (stageForward todos now) t.id = some o ∧
      mget (stageBackward todos now) t.id
        = some (lWrite o (o.dueDate.getD (stagePE todos now))) := by
  obtain ⟨-, hlF, -, -⟩ := stageForward_inv todos now
  obtain ⟨w2, hw2, -, -, -, hlf2⟩ := stageBackward_complete todos now t ht
  rcases stageBackward_evolR todos now t.id with he | ⟨o, lf, ho, hn, hc⟩
  · rw [hw2] at he
    have := (hlF t.id w2 he.symm).2
    rw [this] at hlf2
    exact absurd hlf2 (by simp)
  · have hlfval : lf = o.dueDate.getD (stagePE todos now) := hc (by rw [hdd]; rfl)
    exact ⟨o, ho, by rw [hn, hlfval]⟩

/-- On a one-task input with no dependencies, the project end date is the
earliest finish of that task. -/
theorem stagePE_singleton (t : Todo) (now : Int) (hdeps : t.dependencies = []) :
    stagePE [t] now = addDays now (calculateDuration t.dueDate now) := by
  have hnd : NodupIds [t] := by simp [NodupIds]
  have ht : t ∈ [t] := List.mem_cons_self t []
  obtain ⟨w, hw, hes⟩ := stageForward_es_now [t] now hnd ht hdeps
  obtain ⟨w', hw', hstat⟩ := stageForward_statPart [t] now hnd ht
  have hww : w = w' := Option.some.inj (hw.symm.trans hw')
  have hdur : w.duration = calculateDuration t.dueDate now := by
    rw [hww]
    have := congrArg (fun p => p.2.2.2.2.2.2) hstat
    simpa [statPart, initSched] using this
  obtain ⟨hsF, -, -, -⟩ := stageForward_inv [t] now
  have hef2 : w.earliestFinishDate
      = some (addDays now (calculateDuration t.dueDate now)) := by
    have := (hsF t.id w hw).1
    rw [this, hes, ← hdur]
    rfl
  have hbind : (mget (stageForward [t] now) t.id).bind
      (fun u => u.earliestFinishDate)
      = some (addDays now (calculateDuration t.dueDate now)) := by
    rw [hw]
    exact hef2
  have hlt : now < addDays now (calculateDuration t.dueDate now) := by
    rw [addDays]
    have h1 : dayMs ≤ calculateDuration t.dueDate now * dayMs :=
      le_mul_of_one_le_left (by decide) (calcDuration_ge_one t.dueDate now)
    have h2 : (0 : Int) < calculateDuration t.dueDate now * dayMs :=
      lt_of_lt_of_le (by decide) h1
    linarith
  rw [stagePE, projectEndDate, List.foldl_cons, List.foldl_nil, hbind]
  simp only [if_pos hlt]


/-- For a lone task, the latest start (due date or project end, minus the
duration) never exceeds the reference instant, provided the due date is
normalized to midnight. -/
theorem singleton_ls_le_now (now : Int) (due : Option Int)
    (hnorm : ∀ d, due = some d → d.emod dayMs = 0) :
    due.getD (addDays now (calculateDuration due now))
      - calculateDuration due now * dayMs ≤ now := by
  cases due with
  | none =>
    simp only [Option.getD, calculateDuration, addDays]
    omega
  | some d =>
    have hd0 : d.emod dayMs = 0 := hnorm d rfl
    simp only [Option.getD]
    have hcalc : calculateDuration (some d) now
        = max 1 (ceilDiv (d - midnightOf now) dayMs) := by
      rw [calculateDuration]
      rw [show midnightOf d = d by rw [midnightOf, hd0]; ring]
    rw [hcalc]
    have hle1 := le_max_left 1 (ceilDiv (d - midnightOf now) dayMs)
    have hle2 := le_max_right 1 (ceilDiv (d - midnightOf now) dayMs)
    have hconv : ∀ a : Int, a.ediv 86400000 = a / 86400000 := fun _ => rfl
    have hconv2 : ∀ a : Int, a.emod 86400000 = a % 86400000 := fun _ => rfl
    rcases max_choice 1 (ceilDiv (d - midnightOf now) dayMs) with h | h <;>
      rw [h] at hle1 hle2 ⊢ <;>
      simp only [ceilDiv, midnightOf, dayMs, hconv, hconv2] at hle1 hle2 hd0 ⊢ <;>
      omega

/-- C8: the empty input yields the empty schedule map, and a single task
with no dependencies and no dependents (its due date, when present, being a
midnight-normalized calendar value as required at the interface boundary)
yields a trivial one-node critical path: the task is marked critical and its
criticalPath is the one-element list of its own id. -/
theorem criticalPath_degenerate (now : Int) :
    (calculateCriticalPath [] now = []) ∧
    (∀ id title due completed,
      (∀ d, due = some d → d.emod dayMs = 0) →
      ∃ u, mget (calculateCriticalPath
          [{ id := id, title := title, dueDate := due, completed := completed,
             dependencies := [], dependents := [] }] now) id = some u ∧
        u.isCritical = true ∧ u.criticalPath = [id]) := by
  constructor
  · rfl
  · intro id title due completed hnorm
    set t : Todo :=
      { id := id, title := title, dueDate := due, completed := completed,
        dependencies := [], dependents := [] } with htdef
    have hnd : NodupIds [t] := by simp [NodupIds]
    have ht : t ∈ [t] := List.mem_cons_self t []
    have hdd : dependentsOf [t] t.id = [] := by
      simp [dependentsOf, htdef]
    obtain ⟨o, ho, hbw⟩ := stageBackward_lfWrite [t] now ht hdd
    obtain ⟨w, hw, hes⟩ := stageForward_es_now [t] now hnd ht rfl
    have how : o = w := Option.some.inj (ho.symm.trans hw)
    have hoes : o.earliestStartDate = some now := by rw [how]; exact hes
    obtain ⟨w', hw', hstat⟩ := stageForward_statPart [t] now hnd ht
    have how' : o = w' := Option.some.inj (ho.symm.trans hw')
    have hdur : o.duration = calculateDuration due now := by
      rw [how']
      have := congrArg (fun p => p.2.2.2.2.2.2) hstat
      simpa [statPart, initSched] using this
    have hodue : o.dueDate = due := by
      rw [how']
      have := congrArg (fun p => p.2.2.1) hstat
      simpa [statPart, initSched] using this
    have hpe : stagePE [t] now = addDays now (calculateDuration due now) :=
      stagePE_singleton t now rfl
    obtain ⟨hg1, hg2, hg3, hg4, hg5, hg6⟩ :=
      lWrite_fields o (o.dueDate.getD (stagePE [t] now))
    have hlfval : o.dueDate.getD (stagePE [t] now)
        = due.getD (addDays now (calculateDuration due now)) := by
      rw [hodue, hpe]
    have hslack : (lWrite o (o.dueDate.getD (stagePE [t] now))).slackMs = 0 := by
      rw [hg6, hoes]
      dsimp only
      have hle : addDays (o.dueDate.getD (stagePE [t] now)) (-o.duration) - now ≤ 0 := by
        rw [addDays, hdur, hlfval]
        have := singleton_ls_le_now now due hnorm
        linarith
      have : addDays (o.dueDate.getD (stagePE [t] now)) (-o.duration) - now ≤ 0 := hle
      omega
    have hzsp : zeroSlackPred (stageBackward [t] now) t.id = true := by
      rw [zeroSlackPred, hbw]
      simp [hslack]
    have hdepso : (lWrite o (o.dueDate.getD (stagePE [t] now))).dependencies = [] := by
      have hsp := statPart_lWrite o (o.dueDate.getD (stagePE [t] now))
      have h1 : (lWrite o (o.dueDate.getD (stagePE [t] now))).dependencies
          = o.dependencies := congrArg (fun p => p.2.2.2.2.1) hsp
      rw [h1, how']
      have := congrArg (fun p => p.2.2.2.2.1) hstat
      simpa [statPart, initSched] using this
    have htrace : tracePathAux (stageBackward [t] now) (Nat.succ 1) t.id
        = some [t.id] := by
      simp only [tracePathAux, hbw, hdepso, List.find?]
    have htr : stageTrace [t] now = some [t.id] := by
      have hends : (([t].filter (fun u => u.dependents.isEmpty)).map (fun u => u.id))
          = [t.id] := by simp [htdef]
      have hcrit : List.filter (zeroSlackPred (stageBackward [t] now)) [t.id]
          = [t.id] := by
        simp [List.filter, hzsp]
      simp only [stageTrace, findCriticalPathModel, hends, hcrit]
      exact htrace
    refine ⟨mWrite (lWrite o (o.dueDate.getD (stagePE [t] now))) [t.id], ?_, rfl, rfl⟩
    show mget (calculateCriticalPath [t] now) t.id = _
    rw [calculateCriticalPath, htr, mget_markCritical, hbw]
    simp

/-- C8 witness: a concrete lone task is its own one-node critical path. -/
theorem criticalPath_degenerate_witness :
    (∀ d, (none : Option Int) = some d → d.emod dayMs = 0) ∧
    (∃ u, mget (calculateCriticalPath
        [{ id := 7, title := "s", dueDate := none, completed := false,
           dependencies := [], dependents := [] }] 5) 7 = some u ∧
      u.isCritical = true ∧ u.criticalPath = [7]) :=
  ⟨fun _ h => absurd h (by simp),
   (criticalPath_degenerate 5).2 7 "s" none false (fun _ h => absurd h (by simp))⟩

/-- The concrete entry of task 1 in the schedule of cexC1Todos at time 0. -/
def c7Entry : ScheduledTodo :=
  (mget (calculateCriticalPath cexC1Todos 0) 1).getD defaultSched

/-- C7 witness: the boundary anchors evaluated on a concrete two-task chain. -/
theorem criticalPath_boundary_anchors_witness :
    (NodupIds cexC1Todos ∧ AcyclicRank cexC1Todos (fun x => x.toNat) ∧
      ConsistentLists cexC1Todos ∧
      (⟨1, "x", none, false, [], [2]⟩ : Todo) ∈ cexC1Todos ∧
      mget (calculateCriticalPath cexC1Todos 0) 1 = some c7Entry) ∧
    (((⟨1, "x", none, false, [], [2]⟩ : Todo).dependencies = [] →
        c7Entry.earliestStartDate = some 0) ∧
      ((⟨1, "x", none, false, [], [2]⟩ : Todo).dependents = [] →
        c7Entry.latestFinishDate = some
          ((⟨1, "x", none, false, [], [2]⟩ : Todo).dueDate.getD
            (stagePE cexC1Todos 0)))) :=
  ⟨⟨by unfold NodupIds; decide, by unfold AcyclicRank; decide,
      by unfold ConsistentLists; decide, by decide, by decide⟩,
    criticalPath_boundary_anchors cexC1Todos 0 (fun x => x.toNat)
      (by unfold NodupIds; decide) (by unfold AcyclicRank; decide)
      (by unfold ConsistentLists; decide)
      ⟨1, "x", none, false, [], [2]⟩ (by decide) c7Entry (by decide)⟩

/-! ## C4: shape of the reported critical path -/

/-- The day-valued slack is zero exactly when the stored millisecond
difference is zero. -/
theorem slack_zero_iff (u : ScheduledTodo) : u.slack = 0 ↔ u.slackMs = 0 := by
  rw [ScheduledTodo.slack, div_eq_zero_iff]
  constructor
  · intro h
    rcases h with h | h
    · exact_mod_cast h
    · exact absurd h (by norm_num [dayMs])
  · intro h
    exact Or.inl (by exact_mod_cast h)

/-- Static fields of a backward-pass entry agree with the initial record. -/
theorem stageBackward_statPart (todos : List Todo) (now : Int)
    (hnd : NodupIds todos) {t : Todo} (ht : t ∈ todos) :
    ∃ w, mget (stageBackward todos now) t.id = some w ∧
      statPart w = statPart (initSched t now) := by
  obtain ⟨-, -, hev⟩ := stageBackward_inv todos now
  obtain ⟨w1, hw1, hst1⟩ := stageForward_statPart todos now hnd ht
  have hst := hev.statEqL t.id
  rw [hw1] at hst
  cases hw : mget (stageBackward todos now) t.id with
  | none => rw [hw] at hst; exact absurd hst (by simp)
  | some w =>
    rw [hw] at hst
    exact ⟨w, rfl, by
      have : statPart w = statPart w1 := by simpa using hst
      rw [this, hst1]⟩

/-- The backward map has an entry exactly for the supplied ids. -/
theorem stageBackward_dom (todos : List Todo) (now : Int) (x : Int) :
    (mget (stageBackward todos now) x).isSome ↔ ∃ t ∈ todos, t.id = x := by
  obtain ⟨-, -, -, hevF⟩ := stageForward_inv todos now
  obtain ⟨-, -, hevB⟩ := stageBackward_inv todos now
  rw [hevB.statEqL.isSome x, hevF.statEqE.isSome x]
  constructor
  · intro h
    obtain ⟨u, hu⟩ := Option.isSome_iff_exists.mp h
    obtain ⟨w, hw, hwx, -⟩ := mget_buildMap_cases todos now x u hu
    exact ⟨w, hw, hwx⟩
  · intro ⟨t, ht, htx⟩
    rw [← htx]
    exact buildMap_domSome todos now t ht

/-- The count of supplied ids of rank below the rank of x; the measure that
shrinks along every traced dependency step. -/
def countLt (todos : List Todo) (rank : Int → Nat) (x : Int) : Nat :=
  (((todos.map (fun t => t.id)).toFinset).filter (fun y => rank y < rank x)).card

theorem countLt_lt (todos : List Todo) (rank : Int → Nat) {d x : Int}
    (hd : ∃ t ∈ todos, t.id = d) (hr : rank d < rank x) :
    countLt todos rank d < countLt todos rank x := by
  have hsub : (((todos.map (fun t => t.id)).toFinset).filter
        (fun y => rank y < rank d)) ⊆
      (((todos.map (fun t => t.id)).toFinset).filter
        (fun y => rank y < rank x)) := by
    intro y hy
    rw [Finset.mem_filter] at hy ⊢
    exact ⟨hy.1, hy.2.trans hr⟩
  apply Finset.card_lt_card
  rw [Finset.ssubset_iff_of_subset hsub]
  refine ⟨d, ?_, ?_⟩
  · obtain ⟨t, ht, htd⟩ := hd
    rw [Finset.mem_filter]
    exact ⟨by
      rw [List.mem_toFinset, List.mem_map]
      exact ⟨t, ht, htd⟩, hr⟩
  · rw [Finset.mem_filter]
    rintro ⟨-, habs⟩
    exact absurd habs (lt_irrefl _)

theorem countLt_le_length (todos : List Todo) (rank : Int → Nat) (x : Int) :
    countLt todos rank x ≤ todos.length := by
  calc countLt todos rank x
      ≤ ((todos.map (fun t => t.id)).toFinset).card := Finset.card_filter_le _ _
    _ ≤ (todos.map (fun t => t.id)).length := List.toFinset_card_le _
    _ = todos.length := List.length_map _ _

/-- On an acyclic input the unguarded trace terminates: it returns a
non-empty zero-slack chain of direct dependency edges ending at its start
node, within any fuel exceeding the rank measure. -/
theorem tracePathAux_spec (todos : List Todo) (now : Int) (rank : Int → Nat)
    (hnd : NodupIds todos) (hac : AcyclicRank todos rank) :
    ∀ (n : Nat) (x : Int), (∃ t ∈ todos, t.id = x) →
      zeroSlackPred (stageBackward todos now) x = true →
      countLt todos rank x < n →
      ∃ p, tracePathAux (stageBackward todos now) n x = some p ∧ p ≠ [] ∧
        p.getLast? = some x ∧
        List.Chain' (fun a b => ∃ t ∈ todos, t.id = b ∧ a ∈ t.dependencies) p ∧
        (∀ y ∈ p, ∃ u, mget (stageBackward todos now) y = some u ∧
          u.slackMs = 0) := by
  intro n
  induction n with
  | zero => intro x _ _ hc; exact absurd hc (Nat.not_lt_zero _)
  | succ n ih =>
    intro x hx hzs hc
    obtain ⟨t, ht, htx⟩ := hx
    obtain ⟨w, hw, hstat⟩ := stageBackward_statPart todos now hnd ht
    rw [htx] at hw
    have hdeps : w.dependencies = t.dependencies := by
      have := congrArg (fun p => p.2.2.2.2.1) hstat
      simpa [statPart, initSched] using this
    have hxslack : ∃ u, mget (stageBackward todos now) x = some u ∧
        u.slackMs = 0 := by
      rw [zeroSlackPred, hw] at hzs
      exact ⟨w, hw, of_decide_eq_true hzs⟩
    simp only [tracePathAux, hw]
    cases hfind : w.dependencies.find? (zeroSlackPred (stageBackward todos now)) with
    | none =>
      simp only [hfind]
      refine ⟨[x], rfl, by simp, by simp, List.chain'_singleton x, ?_⟩
      intro y hy
      rw [List.mem_singleton] at hy
      subst hy
      exact hxslack
    | some d =>
      simp only [hfind]
      have hdz : zeroSlackPred (stageBackward todos now) d = true :=
        List.find?_some hfind
      have hdmem : d ∈ w.dependencies := List.mem_of_find?_eq_some hfind
      rw [hdeps] at hdmem
      have hdsome : (mget (stageBackward todos now) d).isSome := by
        rw [zeroSlackPred] at hdz
        by_contra hns
        rw [Option.not_isSome_iff_eq_none] at hns
        rw [hns] at hdz
        exact absurd hdz (by simp)
      have hdid : ∃ u ∈ todos, u.id = d := (stageBackward_dom todos now d).mp hdsome
      have hrank : rank d < rank x := by
        have := hac t ht d hdmem
        rw [htx] at this
        exact this
      have hcd : countLt todos rank d < n :=
        Nat.lt_of_lt_of_le (countLt_lt todos rank hdid hrank)
          (Nat.lt_succ_iff.mp hc)
      obtain ⟨p', hp', hne', hlast', hchain', hslack'⟩ := ih d hdid hdz hcd
      refine ⟨p' ++ [x], by rw [hp']; rfl, by simp, by simp, ?_, ?_⟩
      · rw [List.chain'_append]
        refine ⟨hchain', List.chain'_singleton x, ?_⟩
        intro a ha b hb
        rw [hlast'] at ha
        obtain rfl : a = d := by simpa using ha.symm
        obtain rfl : b = x := by simpa using hb.symm
        exact ⟨t, ht, htx, hdmem⟩
      · intro y hy
        rw [List.mem_append] at hy
        rcases hy with hy | hy
        · exact hslack' y hy
        · rw [List.mem_singleton] at hy; subst hy; exact hxslack

/-- C4 (amended): on an input with unique ids and an acyclic dependency
graph, when no task with an empty dependent list has slack exactly zero the
reported path is empty and no task is marked critical; when some such task
exists, the reported path is non-empty, every consecutive pair of it is a
direct dependency edge, every task on it has slack exactly zero, and exactly
the tasks on it end marked critical with the full path stored. -/
theorem findCriticalPath_spec (todos : List Todo) (now : Int) (rank : Int → Nat)
    (hnd : NodupIds todos) (hac : AcyclicRank todos rank) :
    ((∀ t ∈ todos, t.dependents = [] →
        ∀ u, mget (calculateCriticalPath todos now) t.id = some u → u.slack ≠ 0) →
      stageTrace todos now = some [] ∧
      (∀ x u, mget (calculateCriticalPath todos now) x = some u →
        u.isCritical = false ∧ u.criticalPath = [])) ∧
    ((∃ t ∈ todos, t.dependents = [] ∧
        ∃ u, mget (calculateCriticalPath todos now) t.id = some u ∧ u.slack = 0) →
      ∃ p, stageTrace todos now = some p ∧ p ≠ [] ∧
        List.Chain' (fun a b => ∃ t ∈ todos, t.id = b ∧ a ∈ t.dependencies) p ∧
        (∀ y ∈ p, ∃ u, mget (calculateCriticalPath todos now) y = some u ∧
          u.slack = 0) ∧
        (∀ x u, mget (calculateCriticalPath todos now) x = some u →
          (u.isCritical = true ↔ x ∈ p) ∧
          (x ∈ p → u.criticalPath = p) ∧ (x ∉ p → u.criticalPath = []))) := by
  obtain ⟨-, hcc, -⟩ := stageBackward_inv todos now
  -- the marking step preserves existence and the stored slack of entries
  have hslackpres : ∀ x,
      (mget (calculateCriticalPath todos now) x).map (fun u => u.slackMs)
        = (mget (stageBackward todos now) x).map (fun u => u.slackMs) := by
    intro x
    rw [calculateCriticalPath]
    cases htr : stageTrace todos now with
    | none => rfl
    | some cp =>
      rw [mget_markCritical]
      cases h : mget (stageBackward todos now) x with
      | none => rfl
      | some o => by_cases hcp : x ∈ cp <;> simp [hcp, mWrite]
  -- a supplied task has slack zero in the result iff the backward map says so
  have hbridge : ∀ x,
      ((∃ u, mget (calculateCriticalPath todos now) x = some u ∧ u.slack = 0) ↔
        zeroSlackPred (stageBackward todos now) x = true) := by
    intro x
    have hsp := hslackpres x
    rw [zeroSlackPred]
    constructor
    · rintro ⟨u, hu, hz⟩
      rw [hu] at hsp
      cases h2 : mget (stageBackward todos now) x with
      | none => rw [h2] at hsp; exact absurd hsp (by simp)
      | some o =>
        rw [h2] at hsp
        have huo : u.slackMs = o.slackMs := by simpa using hsp
        show decide (o.slackMs = 0) = true
        rw [decide_eq_true_eq, ← huo]
        exact (slack_zero_iff u).mp hz
    · intro h
      cases h2 : mget (stageBackward todos now) x with
      | none => rw [h2] at h; exact absurd h (by simp)
      | some o =>
        rw [h2] at h hsp
        have hz : o.slackMs = 0 := by simpa using h
        cases h3 : mget (calculateCriticalPath todos now) x with
        | none => rw [h3] at hsp; exact absurd hsp (by simp)
        | some u =>
          rw [h3] at hsp
          have : u.slackMs = o.slackMs := by simpa using hsp
          exact ⟨u, rfl, (slack_zero_iff u).mpr (this.trans hz)⟩
  constructor
  · -- no zero-slack end node
    intro hno
    have hCR : ((todos.filter (fun t => t.dependents.isEmpty)).map
        (fun t => t.id)).filter (zeroSlackPred (stageBackward todos now)) = [] := by
      rw [List.filter_eq_nil_iff]
      intro c hc
      rw [List.mem_map] at hc
      obtain ⟨t, htf, htc⟩ := hc
      rw [List.mem_filter] at htf
      have hdept : t.dependents = [] := by
        have := htf.2
        rwa [List.isEmpty_iff] at this
      intro habs
      rw [← htc] at habs
      obtain ⟨u, hu, hz⟩ := (hbridge t.id).mpr habs
      exact hno t htf.1 hdept u hu hz
    have htr : stageTrace todos now = some [] := by
      simp only [stageTrace, findCriticalPathModel, hCR]
    refine ⟨htr, ?_⟩
    intro x u hu
    rw [calculateCriticalPath, htr] at hu
    exact hcc x u hu
  · -- some zero-slack end node
    rintro ⟨t, ht, hdept, hz⟩
    have hzs : zeroSlackPred (stageBackward todos now) t.id = true :=
      (hbridge t.id).mp hz
    have htEN : t.id ∈ (todos.filter (fun t => t.dependents.isEmpty)).map
        (fun t => t.id) := by
      rw [List.mem_map]
      exact ⟨t, by rw [List.mem_filter]; exact ⟨ht, by rw [hdept]; rfl⟩, rfl⟩
    have htCR : t.id ∈ ((todos.filter (fun t => t.dependents.isEmpty)).map
        (fun t => t.id)).filter (zeroSlackPred (stageBackward todos now)) := by
      rw [List.mem_filter]
      exact ⟨htEN, hzs⟩
    cases hCR : ((todos.filter (fun t => t.dependents.isEmpty)).map
        (fun t => t.id)).filter (zeroSlackPred (stageBackward todos now)) with
    | nil => rw [hCR] at htCR; exact absurd htCR (by simp)
    | cons c rest =>
      -- the head of the critical end nodes is a supplied zero-slack id
      have hcCR : c ∈ ((todos.filter (fun t => t.dependents.isEmpty)).map
          (fun t => t.id)).filter (zeroSlackPred (stageBackward todos now)) := by
        rw [hCR]; exact List.mem_cons_self c rest
      rw [List.mem_filter] at hcCR
      obtain ⟨hcEN, hczs⟩ := hcCR
      rw [List.mem_map] at hcEN
      obtain ⟨tc, htcf, htcc⟩ := hcEN
      rw [List.mem_filter] at htcf
      have hcid : ∃ u ∈ todos, u.id = c := ⟨tc, htcf.1, htcc⟩
      obtain ⟨p, hp, hne, hlast, hchain, hslk⟩ :=
        tracePathAux_spec todos now rank hnd hac (todos.length + 1) c hcid hczs
          (Nat.lt_succ_of_le (countLt_le_length todos rank c))
      have htr : stageTrace todos now = some p := by
        simp only [stageTrace, findCriticalPathModel, hCR]
        exact hp
      refine ⟨p, htr, hne, hchain, ?_, ?_⟩
      · intro y hy
        obtain ⟨o, ho, hoz⟩ := hslk y hy
        have hsp := hslackpres y
        rw [ho] at hsp
        cases h3 : mget (calculateCriticalPath todos now) y with
        | none => rw [h3] at hsp; exact absurd hsp (by simp)
        | some u =>
          rw [h3] at hsp
          have : u.slackMs = o.slackMs := by simpa using hsp
          exact ⟨u, rfl, (slack_zero_iff u).mpr (this.trans hoz)⟩
      · intro x u hu
        rw [calculateCriticalPath, htr, mget_markCritical] at hu
        cases h2 : mget (stageBackward todos now) x with
        | none => rw [h2] at hu; exact absurd hu (by simp)
        | some o =>
          rw [h2] at hu
          by_cases hxp : x ∈ p
          · simp only [hxp, if_true] at hu
            obtain rfl : mWrite o p = u := Option.some.inj hu
            refine ⟨by simp [mWrite, hxp], fun _ => by simp [mWrite], ?_⟩
            intro habs
            exact absurd hxp habs
          · simp only [hxp, if_false] at hu
            obtain rfl : o = u := Option.some.inj hu
            obtain ⟨hic, hcp⟩ := hcc x o h2
            refine ⟨by simp [hic, hxp], ?_, fun _ => hcp⟩
            intro habs
            exact absurd habs hxp

/-- C4 counterexample: on the cyclic input, task 3 is an end node (empty
dependent list) whose stored slack is exactly zero, yet the reported path is
not a non-empty chain of marked tasks: the unguarded trace aborts and no
task at all is marked critical. -/
theorem findCriticalPath_cyclic_cex :
    (cexCycTodos.filter (fun t => t.dependents.isEmpty)).map (fun t => t.id)
      = [3] ∧
    (mget (calculateCriticalPath cexCycTodos 0) 3).map (fun u => u.slackMs)
      = some 0 ∧
    stageTrace cexCycTodos 0 = none ∧
    (calculateCriticalPath cexCycTodos 0).all (fun p => !p.2.isCritical)
      = true := by
  decide

/-- The concrete entry of task 2 in the schedule of cexC1Todos at time 0. -/
def c4Entry2 : ScheduledTodo :=
  (mget (calculateCriticalPath cexC1Todos 0) 2).getD defaultSched

/-- C4 witness: the amended statement evaluated on a concrete two-task
chain with a zero-slack end node. -/
theorem findCriticalPath_spec_witness :
    (NodupIds cexC1Todos ∧ AcyclicRank cexC1Todos (fun x => x.toNat)) ∧
    (∃ p, stageTrace cexC1Todos 0 = some p ∧ p ≠ [] ∧
      List.Chain' (fun a b => ∃ t ∈ cexC1Todos, t.id = b ∧ a ∈ t.dependencies) p ∧
      (∀ y ∈ p, ∃ u, mget (calculateCriticalPath cexC1Todos 0) y = some u ∧
        u.slack = 0) ∧
      (∀ x u, mget (calculateCriticalPath cexC1Todos 0) x = some u →
        (u.isCritical = true ↔ x ∈ p) ∧
        (x ∈ p → u.criticalPath = p) ∧ (x ∉ p → u.criticalPath = []))) :=
  ⟨⟨by unfold NodupIds; decide, by unfold AcyclicRank; decide⟩,
    (findCriticalPath_spec cexC1Todos 0 (fun x => x.toNat)
      (by unfold NodupIds; decide) (by unfold AcyclicRank; decide)).2
      ⟨⟨2, "y", none, false, [1], []⟩, by decide, by decide,
        c4Entry2, by decide, (slack_zero_iff c4Entry2).mpr (by decide)⟩⟩

/-! ## C3: dependency edges are honored by both passes -/

theorem jsDedup_mem (l : List Int) (x : Int) : x ∈ jsDedup l ↔ x ∈ l := by
  have aux : ∀ (l : List Int) (acc : List Int),
      (x ∈ l.foldl (fun acc y => if y ∈ acc then acc else acc ++ [y]) acc ↔
        x ∈ acc ∨ x ∈ l) := by
    intro l
    induction l with
    | nil => intro acc; simp
    | cons y rest ih =>
      intro acc
      rw [List.foldl_cons]
      by_cases hy : y ∈ acc
      · rw [if_pos hy, ih]
        constructor
        · rintro (h | h)
          · exact Or.inl h
          · exact Or.inr (List.mem_cons_of_mem y h)
        · rintro (h | h)
          · exact Or.inl h
          · rcases List.mem_cons.mp h with rfl | h
            · exact Or.inl hy
            · exact Or.inr h
      · rw [if_neg hy, ih]
        constructor
        · rintro (h | h)
          · rcases List.mem_append.mp h with h | h
            · exact Or.inl h
            · rw [List.mem_singleton] at h
              exact Or.inr (h ▸ List.mem_cons_self y rest)
          · exact Or.inr (List.mem_cons_of_mem y h)
        · rintro (h | h)
          · exact Or.inl (List.mem_append.mpr (Or.inl h))
          · rcases List.mem_cons.mp h with rfl | h
            · exact Or.inl (List.mem_append.mpr (Or.inr (List.mem_singleton.mpr rfl)))
            · exact Or.inr h
  rw [jsDedup, aux]
  simp

theorem find_todo_nodup (todos : List Todo) (hnd : NodupIds todos)
    {t : Todo} (ht : t ∈ todos) :
    todos.find? (fun u => decide (u.id = t.id)) = some t := by
  induction todos with
  | nil => exact absurd ht (by simp)
  | cons u rest ih =>
    rw [NodupIds, List.map_cons, List.nodup_cons] at hnd
    rcases List.mem_cons.mp ht with rfl | ht'
    · rw [List.find?_cons_of_pos _ (by simp)]
    · rw [List.find?_cons_of_neg, ih hnd.2 ht']
      simp only [decide_eq_true_eq]
      intro habs
      exact hnd.1 (habs ▸ List.mem_map_of_mem (fun w => w.id) ht')

theorem find_todo_mem (todos : List Todo) {x : Int} {t : Todo}
    (h : todos.find? (fun u => decide (u.id = x)) = some t) :
    t ∈ todos ∧ t.id = x := by
  have h1 := List.mem_of_find?_eq_some h
  have h2 := List.find?_some h
  rw [decide_eq_true_eq] at h2
  exact ⟨h1, h2⟩

theorem foldl_congr_mem {α β : Type} (l : List α) (f g : β → α → β) :
    (∀ b, ∀ x ∈ l, f b x = g b x) → ∀ a, l.foldl f a = l.foldl g a := by
  induction l with
  | nil => intro _ a; rfl
  | cons x rest ih =>
    intro h a
    rw [List.foldl_cons, List.foldl_cons, h a x (List.mem_cons_self x rest)]
    exact ih (fun b y hy => h b y (List.mem_cons_of_mem x hy)) _

/-- A fold that only raises its accumulator stays at least the accumulator. -/
theorem foldl_max_ge_init (F : Int → Option Int) (l : List Int) :
    ∀ a, a ≤ l.foldl (fun acc d =>
      match F d with
      | some v => if acc < v then v else acc
      | none => acc) a := by
  induction l with
  | nil => intro a; exact le_refl a
  | cons d rest ih =>
    intro a
    rw [List.foldl_cons]
    refine le_trans ?_ (ih _)
    cases hF : F d with
    | none => exact le_refl a
    | some v =>
      simp only
      by_cases hlt : a < v
      · rw [if_pos hlt]; exact le_of_lt hlt
      · rw [if_neg hlt]

/-- The max-fold dominates the value of every listed element. -/
theorem foldl_max_ge_elem (F : Int → Option Int) (l : List Int) {d : Int}
    {w : Int} (hd : d ∈ l) (hw : F d = some w) :
    ∀ a, w ≤ l.foldl (fun acc d =>
      match F d with
      | some v => if acc < v then v else acc
      | none => acc) a := by
  induction l with
  | nil => exact absurd hd (by simp)
  | cons e rest ih =>
    intro a
    rcases List.mem_cons.mp hd with rfl | hd'
    · rw [List.foldl_cons]
      refine le_trans ?_ (foldl_max_ge_init F rest _)
      rw [hw]
      simp only
      by_cases hlt : a < w
      · rw [if_pos hlt]
      · rw [if_neg hlt]; omega
    · rw [List.foldl_cons]
      exact ih hd' _

/-- A fold that only lowers its accumulator stays at most the accumulator. -/
theorem foldl_min_le_init (G : Int → Option Int) (l : List Int) :
    ∀ a, l.foldl (fun acc d =>
      match G d with
      | some v => if v < acc then v else acc
      | none => acc) a ≤ a := by
  induction l with
  | nil => intro a; exact le_refl a
  | cons d rest ih =>
    intro a
    rw [List.foldl_cons]
    refine le_trans (ih _) ?_
    cases hG : G d with
    | none => exact le_refl a
    | some v =>
      simp only
      by_cases hlt : v < a
      · rw [if_pos hlt]; exact le_of_lt hlt
      · rw [if_neg hlt]

/-- The min-fold is dominated by the value of every listed element. -/
theorem foldl_min_le_elem (G : Int → Option Int) (l : List Int) {d : Int}
    {w : Int} (hd : d ∈ l) (hw : G d = some w) :
    ∀ a, l.foldl (fun acc d =>
      match G d with
      | some v => if v < acc then v else acc
      | none => acc) a ≤ w := by
  induction l with
  | nil => exact absurd hd (by simp)
  | cons e rest ih =>
    intro a
    rcases List.mem_cons.mp hd with rfl | hd'
    · rw [List.foldl_cons]
      refine le_trans (foldl_min_le_init G rest _) ?_
      rw [hw]
      simp only
      by_cases hlt : w < a
      · rw [if_pos hlt]
      · rw [if_neg hlt]; omega
    · rw [List.foldl_cons]
      exact ih hd' _

/-- The count of supplied ids of rank above the rank of x; the measure that
shrinks along every backward step into a dependent. -/
def countGt (todos : List Todo) (rank : Int → Nat) (x : Int) : Nat :=
  (((todos.map (fun t => t.id)).toFinset).filter (fun y => rank x < rank y)).card

theorem countGt_lt (todos : List Todo) (rank : Int → Nat) {d x : Int}
    (hd : ∃ t ∈ todos, t.id = d) (hr : rank x < rank d) :
    countGt todos rank d < countGt todos rank x := by
  have hsub : (((todos.map (fun t => t.id)).toFinset).filter
        (fun y => rank d < rank y)) ⊆
      (((todos.map (fun t => t.id)).toFinset).filter
        (fun y => rank x < rank y)) := by
    intro y hy
    rw [Finset.mem_filter] at hy ⊢
    exact ⟨hy.1, hr.trans hy.2⟩
  apply Finset.card_lt_card
  rw [Finset.ssubset_iff_of_subset hsub]
  refine ⟨d, ?_, ?_⟩
  · obtain ⟨t, ht, htd⟩ := hd
    rw [Finset.mem_filter]
    exact ⟨by
      rw [List.mem_toFinset, List.mem_map]
      exact ⟨t, ht, htd⟩, hr⟩
  · rw [Finset.mem_filter]
    rintro ⟨-, habs⟩
    exact absurd habs (lt_irrefl _)

theorem countGt_le_length (todos : List Todo) (rank : Int → Nat) (x : Int) :
    countGt todos rank x ≤ todos.length := by
  calc countGt todos rank x
      ≤ ((todos.map (fun t => t.id)).toFinset).card := Finset.card_filter_le _ _
    _ ≤ (todos.map (fun t => t.id)).length := List.toFinset_card_le _
    _ = todos.length := List.length_map _ _

theorem dependentsOf_mem (todos : List Todo) (x d : Int) :
    d ∈ dependentsOf todos x ↔ ∃ t ∈ todos, t.id = d ∧ x ∈ t.dependencies := by
  rw [dependentsOf]
  constructor
  · intro h
    rw [List.mem_map] at h
    obtain ⟨t, ht, htd⟩ := h
    rw [List.mem_filter] at ht
    refine ⟨t, ht.1, htd, ?_⟩
    have := ht.2
    simpa using this
  · rintro ⟨t, ht, htd, hx⟩
    rw [List.mem_map]
    refine ⟨t, ?_, htd⟩
    rw [List.mem_filter]
    exact ⟨ht, by simpa using hx⟩

/-- The value the forward pass assigns as earliest finish, as a function of
the input alone: the duration on top of the largest dependency finish (or of
the reference instant when there are no dependencies), fuel-bounded. -/
def efSpec (todos : List Todo) (now : Int) : Nat → Int → Option Int
  | 0, _ => none
  | Nat.succ f, x =>
    match todos.find? (fun u => decide (u.id = x)) with
    | none => none
    | some t =>
      let ds := jsDedup t.dependencies
      let es := if ds.isEmpty then now
        else ds.foldl (fun acc d =>
          match efSpec todos now f d with
          | some v => if acc < v then v else acc
          | none => acc) 0
      some (addDays es (calculateDuration t.dueDate now))

/-- The latest-start contribution of one dependent in the backward fold. -/
def lsSpecStep (todos : List Todo) (now : Int) (F : Int → Option Int)
    (d : Int) : Option Int :=
  match F d, todos.find? (fun u => decide (u.id = d)) with
  | some w, some u => some (addDays w (-(calculateDuration u.dueDate now)))
  | _, _ => none

/-- The value the backward pass assigns as latest finish, as a function of
the input and the project end date alone, fuel-bounded. -/
def lfSpec (todos : List Todo) (now pe : Int) : Nat → Int → Option Int
  | 0, _ => none
  | Nat.succ f, x =>
    match todos.find? (fun u => decide (u.id = x)) with
    | none => none
    | some t =>
      let ds := dependentsOf todos x
      let lf := if ds.isEmpty then t.dueDate.getD pe
        else ds.foldl (fun acc d =>
          match lsSpecStep todos now (lfSpec todos now pe f) d with
          | some v => if v < acc then v else acc
          | none => acc) pe
      some lf

theorem efSpec_stable (todos : List Todo) (now : Int) (rank : Int → Nat)
    (hnd : NodupIds todos) (hac : AcyclicRank todos rank)
    (hrefs : RefsClosed todos) :
    ∀ (n : Nat) (x : Int) (f1 f2 : Nat), countLt todos rank x < n →
      countLt todos rank x < f1 → countLt todos rank x < f2 →
      efSpec todos now f1 x = efSpec todos now f2 x := by
  intro n
  induction n with
  | zero => intro x f1 f2 hc _ _; exact absurd hc (Nat.not_lt_zero _)
  | succ n ih =>
    intro x f1 f2 hc h1 h2
    obtain ⟨f1', rfl⟩ : ∃ k, f1 = k + 1 := ⟨f1 - 1, by omega⟩
    obtain ⟨f2', rfl⟩ : ∃ k, f2 = k + 1 := ⟨f2 - 1, by omega⟩
    simp only [efSpec]
    cases hf : todos.find? (fun u => decide (u.id = x)) with
    | none => rfl
    | some t =>
      obtain ⟨ht, htx⟩ := find_todo_mem todos hf
      simp only
      by_cases hds : (jsDedup t.dependencies).isEmpty
      · rw [if_pos hds, if_pos hds]
      · rw [if_neg hds, if_neg hds]
        have hfold :
            (jsDedup t.dependencies).foldl (fun acc d =>
              match efSpec todos now f1' d with
              | some v => if acc < v then v else acc
              | none => acc) 0
            = (jsDedup t.dependencies).foldl (fun acc d =>
              match efSpec todos now f2' d with
              | some v => if acc < v then v else acc
              | none => acc) 0 := by
          apply foldl_congr_mem
          intro b d hdmem
          have hdm : d ∈ t.dependencies := (jsDedup_mem _ _).mp hdmem
          have hrank : rank d < rank x := htx ▸ hac t ht d hdm
          have hdid : ∃ u ∈ todos, u.id = d := hrefs t ht d hdm
          have hcd : countLt todos rank d < countLt todos rank x :=
            countLt_lt todos rank hdid hrank
          rw [ih d f1' f2' (by omega) (by omega) (by omega)]
        rw [hfold]

theorem lfSpec_stable (todos : List Todo) (now pe : Int) (rank : Int → Nat)
    (hnd : NodupIds todos) (hac : AcyclicRank todos rank) :
    ∀ (n : Nat) (x : Int) (f1 f2 : Nat), countGt todos rank x < n →
      countGt todos rank x < f1 → countGt todos rank x < f2 →
      lfSpec todos now pe f1 x = lfSpec todos now pe f2 x := by
  intro n
  induction n with
  | zero => intro x f1 f2 hc _ _; exact absurd hc (Nat.not_lt_zero _)
  | succ n ih =>
    intro x f1 f2 hc h1 h2
    obtain ⟨f1', rfl⟩ : ∃ k, f1 = k + 1 := ⟨f1 - 1, by omega⟩
    obtain ⟨f2', rfl⟩ : ∃ k, f2 = k + 1 := ⟨f2 - 1, by omega⟩
    simp only [lfSpec]
    cases hf : todos.find? (fun u => decide (u.id = x)) with
    | none => rfl
    | some t =>
      obtain ⟨ht, htx⟩ := find_todo_mem todos hf
      simp only
      by_cases hds : (dependentsOf todos x).isEmpty
      · rw [if_pos hds, if_pos hds]
      · rw [if_neg hds, if_neg hds]
        have hfold :
            (dependentsOf todos x).foldl (fun acc d =>
              match lsSpecStep todos now (lfSpec todos now pe f1') d with
              | some v => if v < acc then v else acc
              | none => acc) pe
            = (dependentsOf todos x).foldl (fun acc d =>
              match lsSpecStep todos now (lfSpec todos now pe f2') d with
              | some v => if v < acc then v else acc
              | none => acc) pe := by
          apply foldl_congr_mem
          intro b d hdmem
          obtain ⟨u, hu, hud, hxu⟩ := (dependentsOf_mem todos x d).mp hdmem
          have hrank : rank x < rank d := hud ▸ hac u hu x hxu
          have hdid : ∃ w ∈ todos, w.id = d := ⟨u, hu, hud⟩
          have hcd : countGt todos rank d < countGt todos rank x :=
            countGt_lt todos rank hdid hrank
          rw [show lsSpecStep todos now (lfSpec todos now pe f1') d
              = lsSpecStep todos now (lfSpec todos now pe f2') d from by
            rw [lsSpecStep, lsSpecStep,
              ih d f1' f2' (by omega) (by omega) (by omega)]]
        rw [hfold]

/-- y is a supplied task id. -/
def IdOf (todos : List Todo) (y : Int) : Prop := ∃ t ∈ todos, t.id = y

/-- The map carries entries exactly at the supplied ids. -/
def DomEq (todos : List Todo) (m : TMap) : Prop :=
  ∀ y, (mget m y).isSome ↔ IdOf todos y

/-- Every entry remembers the duration and due date of its input task. -/
def StatDD (todos : List Todo) (now : Int) (m : TMap) : Prop :=
  ∀ x u, mget m x = some u → ∃ t ∈ todos, t.id = x ∧
    u.duration = calculateDuration t.dueDate now ∧ u.dueDate = t.dueDate

/-- The earliest finish of the entry at y is present. -/
def efSet (m : TMap) (y : Int) : Prop :=
  ∃ u v, mget m y = some u ∧ u.earliestFinishDate = some v

/-- Every set earliest finish carries its specification value. -/
def GoodF (todos : List Todo) (now : Int) (rank : Int → Nat) (m : TMap) : Prop :=
  ∀ x u, mget m x = some u → ∀ v, u.earliestFinishDate = some v →
    efSpec todos now (countLt todos rank x + 1) x = some v

theorem DomEq_of_statEq (todos : List Todo) {m m' : TMap}
    (h : StatEq m m') (hd : DomEq todos m) : DomEq todos m' := by
  intro y
  rw [h.isSome y]
  exact hd y

theorem StatDD_of_statEq (todos : List Todo) (now : Int) {m m' : TMap}
    (h : StatEq m m') (hd : StatDD todos now m) : StatDD todos now m' := by
  intro x u hu
  have hs := h x
  rw [hu] at hs
  cases hm : mget m x with
  | none => rw [hm] at hs; exact absurd hs (by simp)
  | some w =>
    rw [hm] at hs
    obtain ⟨t, ht, htx, hdur, hdue⟩ := hd x w hm
    have hsp : statPart u = statPart w := by simpa using hs
    refine ⟨t, ht, htx, ?_, ?_⟩
    · rw [show u.duration = (statPart u).2.2.2.2.2.2 from rfl, hsp]
      exact hdur
    · rw [show u.dueDate = (statPart u).2.2.1 from rfl, hsp]
      exact hdue

theorem efSet_of_statEq_rev {m m' : TMap} (h : StatEq m m') {y : Int}
    (hy : (mget m y).isSome) : (mget m' y).isSome := by
  rw [h.isSome y]; exact hy

/-- Unfolding equation for one step of the dependency loop when the
dependency has an entry and ends the step with a known earliest finish. -/
theorem calcEDepsGen_cons (visit : Int → TMap → List Int → TMap × List Int)
    (d : Int) (rest : List Int) (m : TMap) (v : List Int) (acc : Int)
    (dep : ScheduledTodo) (m2 : TMap) (v2 : List Int) (e : Int)
    (hdep : mget m d = some dep)
    (hs : (if dep.earliestFinishDate.isNone then visit d m v else (m, v)) = (m2, v2))
    (he : (mget m2 d).bind (fun u => u.earliestFinishDate) = some e) :
    calcEDepsGen visit (d :: rest) m v acc
      = calcEDepsGen visit rest m2 v2 (if acc < e then e else acc) := by
  simp only [calcEDepsGen, hdep, hs, he]

/-- The dependency loop of the forward pass computes exactly the
specification fold, sets the earliest finish of every listed dependency,
and preserves the invariants, assuming its recursive visit does so. -/
theorem calcEDepsGen_correct (todos : List Todo) (now : Int) (rank : Int → Nat)
    (f : Nat) (visit : Int → TMap → List Int → TMap × List Int)
    (hvE : ∀ x m v, EvolE m (visit x m v).1)
    (hvisit : ∀ (x : Int) (m : TMap) (v : List Int),
      GoodF todos now rank m → DomEq todos m → StatDD todos now m →
      (∀ y ∈ v, ¬ IdOf todos y ∨ efSet m y ∨ rank x < rank y) →
      countLt todos rank x < f →
      (GoodF todos now rank (visit x m v).1 ∧
       (∀ y, efSet m y → efSet (visit x m v).1 y) ∧
       (∀ y ∈ v, y ∈ (visit x m v).2) ∧
       (∀ y ∈ (visit x m v).2,
          y ∈ v ∨ ¬ IdOf todos y ∨ efSet (visit x m v).1 y) ∧
       (IdOf todos x → efSet (visit x m v).1 x))) :
    ∀ (ds : List Int) (m : TMap) (v : List Int) (acc : Int),
      GoodF todos now rank m → DomEq todos m → StatDD todos now m →
      (∀ d ∈ ds, IdOf todos d ∧ countLt todos rank d < f) →
      (∀ y ∈ v, ¬ IdOf todos y ∨ efSet m y ∨ (∀ d ∈ ds, rank d < rank y)) →
      (GoodF todos now rank (calcEDepsGen visit ds m v acc).1 ∧
       (∀ y, efSet m y → efSet (calcEDepsGen visit ds m v acc).1 y) ∧
       (∀ y ∈ v, y ∈ (calcEDepsGen visit ds m v acc).2.1) ∧
       (∀ y ∈ (calcEDepsGen visit ds m v acc).2.1,
          y ∈ v ∨ ¬ IdOf todos y ∨ efSet (calcEDepsGen visit ds m v acc).1 y) ∧
       (∀ d ∈ ds, efSet (calcEDepsGen visit ds m v acc).1 d) ∧
       (calcEDepsGen visit ds m v acc).2.2
         = ds.foldl (fun a d =>
             match efSpec todos now (countLt todos rank d + 1) d with
             | some w => if a < w then w else a
             | none => a) acc) := by
  intro ds
  induction ds with
  | nil =>
    intro m v acc hg hd hs _ hv
    exact ⟨hg, fun y h => h, fun y h => h, fun y h => Or.inl h,
      fun d hd => absurd hd (by simp), rfl⟩
  | cons d rest ih =>
    intro m v acc hg hdom hsdd hds hv
    have hdid : IdOf todos d := (hds d (List.mem_cons_self d rest)).1
    have hdfuel : countLt todos rank d < f := (hds d (List.mem_cons_self d rest)).2
    have hdsome : (mget m d).isSome := (hdom d).mpr hdid
    obtain ⟨dep, hdep⟩ := Option.isSome_iff_exists.mp hdsome
    by_cases hif : dep.earliestFinishDate.isNone
    · -- the dependency is unresolved: recurse into it
      have hvis := hvisit d m v hg hdom hsdd
        (fun y hy => by
          rcases hv y hy with h | h | h
          · exact Or.inl h
          · exact Or.inr (Or.inl h)
          · exact Or.inr (Or.inr (h d (List.mem_cons_self d rest))))
        hdfuel
      obtain ⟨hg2, hmono2, hvsub2, hvnew2, hcomp2⟩ := hvis
      have hstat2 : StatEq m (visit d m v).1 := (hvE d m v).statEqE
      have hdom2 : DomEq todos (visit d m v).1 := DomEq_of_statEq todos hstat2 hdom
      have hsdd2 : StatDD todos now (visit d m v).1 :=
        StatDD_of_statEq todos now hstat2 hsdd
      obtain ⟨dep2, e2, hdep2, he2⟩ := hcomp2 hdid
      have hEF : efSpec todos now (countLt todos rank d + 1) d = some e2 :=
        hg2 d dep2 hdep2 e2 he2
      have hacc : ((mget (visit d m v).1 d).bind
          (fun u => u.earliestFinishDate)) = some e2 := by
        rw [hdep2]; exact he2
      have heq : calcEDepsGen visit (d :: rest) m v acc
          = calcEDepsGen visit rest (visit d m v).1 (visit d m v).2
              (if acc < e2 then e2 else acc) :=
        calcEDepsGen_cons visit d rest m v acc dep _ _ e2 hdep
          (by rw [if_pos hif]) hacc
      rw [heq]
      obtain ⟨hg3, hmono3, hvsub3, hvnew3, hset3, hacc3⟩ :=
        ih (visit d m v).1 (visit d m v).2 (if acc < e2 then e2 else acc)
          hg2 hdom2 hsdd2
          (fun d' hd' => hds d' (List.mem_cons_of_mem d hd'))
          (fun y hy => by
            rcases hvnew2 y hy with h | h | h
            · rcases hv y h with h' | h' | h'
              · exact Or.inl h'
              · exact Or.inr (Or.inl (hmono2 y h'))
              · exact Or.inr (Or.inr (fun d' hd' =>
                  h' d' (List.mem_cons_of_mem d hd')))
            · exact Or.inl h
            · exact Or.inr (Or.inl h))
      refine ⟨hg3, ?_, ?_, ?_, ?_, ?_⟩
      · intro y hy
        exact hmono3 y (hmono2 y hy)
      · intro y hy
        exact hvsub3 y (hvsub2 y hy)
      · intro y hy
        rcases hvnew3 y hy with h | h | h
        · rcases hvnew2 y h with h' | h' | h'
          · exact Or.inl h'
          · exact Or.inr (Or.inl h')
          · exact Or.inr (Or.inr (hmono3 y h'))
        · exact Or.inr (Or.inl h)
        · exact Or.inr (Or.inr h)
      · intro d' hd'
        rcases List.mem_cons.mp hd' with rfl | hd''
        · exact hmono3 d' (hcomp2 hdid)
        · exact hset3 d' hd''
      · simp only [List.foldl_cons]
        rw [hEF]
        exact hacc3
    · -- the dependency already carries its earliest finish
      have hefd : efSet m d := by
        cases he' : dep.earliestFinishDate with
        | none => rw [he'] at hif; exact absurd rfl hif
        | some e => exact ⟨dep, e, hdep, he'⟩
      obtain ⟨dep', e, hdep', he⟩ := hefd
      obtain rfl : dep = dep' := by rw [hdep] at hdep'; exact Option.some.inj hdep'
      have hEF : efSpec todos now (countLt todos rank d + 1) d = some e :=
        hg d dep hdep e he
      have hacc : ((mget m d).bind (fun u => u.earliestFinishDate)) = some e := by
        rw [hdep]; exact he
      have heq : calcEDepsGen visit (d :: rest) m v acc
          = calcEDepsGen visit rest m v (if acc < e then e else acc) :=
        calcEDepsGen_cons visit d rest m v acc dep m v e hdep
          (by rw [if_neg hif]) hacc
      rw [heq]
      obtain ⟨hg3, hmono3, hvsub3, hvnew3, hset3, hacc3⟩ :=
        ih m v (if acc < e then e else acc) hg hdom hsdd
          (fun d' hd' => hds d' (List.mem_cons_of_mem d hd'))
          (fun y hy => by
            rcases hv y hy with h | h | h
            · exact Or.inl h
            · exact Or.inr (Or.inl h)
            · exact Or.inr (Or.inr (fun d' hd' =>
                h d' (List.mem_cons_of_mem d hd'))))
      refine ⟨hg3, hmono3, hvsub3, ?_, ?_, ?_⟩
      · intro y hy
        rcases hvnew3 y hy with h | h | h
        · exact Or.inl h
        · exact Or.inr (Or.inl h)
        · exact Or.inr (Or.inr h)
      · intro d' hd'
        rcases List.mem_cons.mp hd' with rfl | hd''
        · exact hmono3 d' ⟨dep, e, hdep, he⟩
        · exact hset3 d' hd''
      · simp only [List.foldl_cons]
        rw [hEF]
        exact hacc3

/-- Two supplied tasks with the same id are the same task. -/
theorem todo_id_unique (todos : List Todo) (hnd : NodupIds todos)
    {t u : Todo} (ht : t ∈ todos) (hu : u ∈ todos) (h : t.id = u.id) : t = u := by
  have h1 := find_todo_nodup todos hnd ht
  have h2 := find_todo_nodup todos hnd hu
  rw [h] at h1
  rw [h1] at h2
  exact Option.some.inj h2

/-- The forward pass on one node: on a valid store it preserves the
invariants, grows the visited set consistently, sets the earliest finish of
the visited node, and every earliest finish it records is the
specification value for that node. -/
theorem calcE_correct (todos : List Todo) (now : Int) (rank : Int → Nat)
    (hnd : NodupIds todos) (hac : AcyclicRank todos rank)
    (hrefs : RefsClosed todos) :
    ∀ (f : Nat) (x : Int) (m : TMap) (v : List Int),
      GoodF todos now rank m → DomEq todos m → StatDD todos now m →
      (∀ y ∈ v, ¬ IdOf todos y ∨ efSet m y ∨ rank x < rank y) →
      countLt todos rank x < f →
      (GoodF todos now rank (calcE (buildGraph todos) now f x m v).1 ∧
       (∀ y, efSet m y → efSet (calcE (buildGraph todos) now f x m v).1 y) ∧
       (∀ y ∈ v, y ∈ (calcE (buildGraph todos) now f x m v).2) ∧
       (∀ y ∈ (calcE (buildGraph todos) now f x m v).2,
          y ∈ v ∨ ¬ IdOf todos y ∨
            efSet (calcE (buildGraph todos) now f x m v).1 y) ∧
       (IdOf todos x → efSet (calcE (buildGraph todos) now f x m v).1 x)) := by
  intro f
  induction f with
  | zero =>
    intro x m v _ _ _ _ hfuel
    exact absurd hfuel (Nat.not_lt_zero _)
  | succ f ihf =>
    intro x m v hg hdom hsdd hv hfuel
    simp only [calcE]
    by_cases hxv : x ∈ v
    · simp only [hxv, if_true]
      refine ⟨hg, fun y h => h, fun y h => h, fun y h => Or.inl h, fun hid => ?_⟩
      rcases hv x hxv with h | h | h
      · exact absurd hid h
      · exact h
      · exact absurd h (lt_irrefl _)
    · simp only [hxv, if_false]
      cases hmx : mget m x with
      | none =>
        have hnid : ¬ IdOf todos x := by
          intro hid
          have := (hdom x).mpr hid
          rw [hmx] at this
          exact absurd this (by simp)
        refine ⟨hg, fun y h => h, fun y hy => List.mem_cons_of_mem x hy,
          fun y hy => ?_, fun hid => absurd hid hnid⟩
        rcases List.mem_cons.mp hy with rfl | hy'
        · exact Or.inr (Or.inl hnid)
        · exact Or.inl hy'
      | some t =>
        obtain ⟨tx, htx, htxid⟩ : IdOf todos x := by
          have := (hdom x).mp (by rw [hmx]; simp)
          exact this
        have hdseq : depsOfG (buildGraph todos) x = jsDedup tx.dependencies := by
          rw [depsOfG, ← htxid, mget_buildGraph_nodup todos hnd htx]
          rfl
        have hfind : todos.find? (fun u => decide (u.id = x)) = some tx := by
          rw [← htxid]
          exact find_todo_nodup todos hnd htx
        cases hdse : (depsOfG (buildGraph todos) x).isEmpty with
        | true =>
          simp only [hdse, if_true, hmx]
          have hdse' : (jsDedup tx.dependencies).isEmpty = true := by
            rw [← hdseq]; exact hdse
          obtain ⟨t', ht', ht'x, hdur, hdue⟩ := hsdd x t hmx
          obtain rfl : t' = tx :=
            todo_id_unique todos hnd ht' htx (ht'x.trans htxid.symm)
          have hEFx : efSpec todos now (countLt todos rank x + 1) x
              = some (addDays now t.duration) := by
            simp only [efSpec, hfind]
            rw [if_pos hdse', hdur]
          have hefx : efSet (mset m x { t with
              earliestStartDate := some now
              earliestFinishDate := some (addDays now t.duration) }) x :=
            ⟨_, addDays now t.duration, mget_mset_self m x _, rfl⟩
          refine ⟨?_, ?_, fun y hy => List.mem_cons_of_mem x hy,
            fun y hy => ?_, fun _ => hefx⟩
          · intro y u hu w hw
            by_cases hxy : x = y
            · subst hxy
              rw [mget_mset_self] at hu
              obtain rfl : _ = u := Option.some.inj hu
              obtain rfl : addDays now t.duration = w := Option.some.inj hw
              exact hEFx
            · rw [mget_mset_ne m _ hxy] at hu
              exact hg y u hu w hw
          · intro y hy
            by_cases hxy : x = y
            · subst hxy
              exact hefx
            · obtain ⟨u, w, hu, hw⟩ := hy
              exact ⟨u, w, by rw [mget_mset_ne m _ hxy]; exact hu, hw⟩
          · rcases List.mem_cons.mp hy with rfl | hy'
            · exact Or.inr (Or.inr hefx)
            · exact Or.inl hy'
        | false =>
          simp only [hdse, Bool.false_eq_true, if_false]
          have hdse' : ¬ (jsDedup tx.dependencies).isEmpty = true := by
            rw [← hdseq, hdse]; exact Bool.false_ne_true
          have hdsarg : ∀ d ∈ depsOfG (buildGraph todos) x,
              IdOf todos d ∧ countLt todos rank d < f := by
            intro d hd
            rw [hdseq] at hd
            have hdm : d ∈ tx.dependencies := (jsDedup_mem _ _).mp hd
            have hdid : IdOf todos d := hrefs tx htx d hdm
            have hrank : rank d < rank x := htxid ▸ hac tx htx d hdm
            have hcd : countLt todos rank d < countLt todos rank x :=
              countLt_lt todos rank hdid hrank
            exact ⟨hdid, by omega⟩
          have hrankds : ∀ d ∈ depsOfG (buildGraph todos) x, rank d < rank x := by
            intro d hd
            rw [hdseq] at hd
            exact htxid ▸ hac tx htx d ((jsDedup_mem _ _).mp hd)
          have Hdeps := calcEDepsGen_correct todos now rank f
            (fun d m' v' => calcE (buildGraph todos) now f d m' v')
            (fun x' m' v' => calcE_evol (buildGraph todos) now f x' m' v')
            (fun x' m' v' hg' hdom' hsdd' hv' hf' =>
              ihf x' m' v' hg' hdom' hsdd' hv' hf')
            (depsOfG (buildGraph todos) x) m (x :: v) 0 hg hdom hsdd hdsarg
            (fun y hy => by
              rcases List.mem_cons.mp hy with rfl | hy'
              · exact Or.inr (Or.inr (hrankds))
              · rcases hv y hy' with h | h | h
                · exact Or.inl h
                · exact Or.inr (Or.inl h)
                · exact Or.inr (Or.inr (fun d hd =>
                    (hrankds d hd).trans h)))
          rcases h2 : calcEDepsGen (fun d m' v' => calcE (buildGraph todos) now f d m' v')
              (depsOfG (buildGraph todos) x) m (x :: v) 0 with ⟨m2, v2, lf⟩
          rw [h2] at Hdeps
          obtain ⟨hg2, hmono2, hvsub2, hvnew2, hset2, hacc2⟩ := Hdeps
          dsimp only at hg2 hmono2 hvsub2 hvnew2 hset2 hacc2
          dsimp only
          have hstat2 : StatEq m m2 := by
            have := (calcEDeps_evol_of (buildGraph todos) now f
              (depsOfG (buildGraph todos) x) m (x :: v) 0).statEqE
            rw [calcEDeps, h2] at this
            exact this
          have hdom2 : DomEq todos m2 := DomEq_of_statEq todos hstat2 hdom
          have hsdd2 : StatDD todos now m2 := StatDD_of_statEq todos now hstat2 hsdd
          cases hm2 : mget m2 x with
          | none =>
            have := (hdom2 x).mpr ⟨tx, htx, htxid⟩
            rw [hm2] at this
            exact absurd this (by simp)
          | some t2 =>
            simp only [hm2]
            obtain ⟨t', ht', ht'x, hdur, hdue⟩ := hsdd2 x t2 hm2
            have heqt : t' = tx :=
              todo_id_unique todos hnd ht' htx (ht'x.trans htxid.symm)
            rw [heqt] at hdur
            have hlf : lf = (jsDedup tx.dependencies).foldl (fun acc d =>
                match efSpec todos now (countLt todos rank x) d with
                | some w => if acc < w then w else acc
                | none => acc) 0 := by
              rw [hacc2, hdseq]
              apply foldl_congr_mem
              intro b d hdmem
              have hdm : d ∈ tx.dependencies := (jsDedup_mem _ _).mp hdmem
              have hdid : ∃ u ∈ todos, u.id = d := hrefs tx htx d hdm
              have hrank : rank d < rank x := htxid ▸ hac tx htx d hdm
              have hcd : countLt todos rank d < countLt todos rank x :=
                countLt_lt todos rank hdid hrank
              rw [efSpec_stable todos now rank hnd hac hrefs
                (countLt todos rank d + 1) d (countLt todos rank d + 1)
                (countLt todos rank x) (by omega) (by omega) (by omega)]
            have hEFx : efSpec todos now (countLt todos rank x + 1) x
                = some (addDays lf t2.duration) := by
              simp only [efSpec, hfind]
              rw [if_neg hdse', hdur, hlf]
            have hefx : efSet (mset m2 x { t2 with
                earliestStartDate := some lf
                earliestFinishDate := some (addDays lf t2.duration) }) x :=
              ⟨_, addDays lf t2.duration, mget_mset_self m2 x _, rfl⟩
            refine ⟨?_, ?_, ?_, fun y hy => ?_, fun _ => hefx⟩
            · intro y u hu w hw
              by_cases hxy : x = y
              · subst hxy
                rw [mget_mset_self] at hu
                obtain rfl : _ = u := Option.some.inj hu
                obtain rfl : addDays lf t2.duration = w := Option.some.inj hw
                exact hEFx
              · rw [mget_mset_ne m2 _ hxy] at hu
                exact hg2 y u hu w hw
            · intro y hy
              by_cases hxy : x = y
              · subst hxy
                exact hefx
              · obtain ⟨u, w, hu, hw⟩ := hmono2 y hy
                exact ⟨u, w, by rw [mget_mset_ne m2 _ hxy]; exact hu, hw⟩
            · intro y hy
              exact hvsub2 y (List.mem_cons_of_mem x hy)
            · have hef2 : ∀ z, efSet m2 z → efSet (mset m2 x { t2 with
                  earliestStartDate := some lf
                  earliestFinishDate := some (addDays lf t2.duration) }) z := by
                intro z hz
                by_cases hxz : x = z
                · subst hxz
                  exact hefx
                · obtain ⟨u, w, hu, hw⟩ := hz
                  exact ⟨u, w, by rw [mget_mset_ne m2 _ hxz]; exact hu, hw⟩
              rcases hvnew2 y hy with h | h | h
              · rcases List.mem_cons.mp h with rfl | hy'
                · exact Or.inr (Or.inr hefx)
                · exact Or.inl hy'
              · exact Or.inr (Or.inl h)
              · exact Or.inr (Or.inr (hef2 y h))

/-- The construction loop establishes the forward invariants. -/
theorem buildMap_fwd_inv (todos : List Todo) (now : Int) (rank : Int → Nat) :
    GoodF todos now rank (buildMap todos now) ∧
    DomEq todos (buildMap todos now) ∧
    StatDD todos now (buildMap todos now) := by
  refine ⟨?_, ?_, ?_⟩
  · intro x u hu w hw
    obtain ⟨t, _, _, rfl⟩ := mget_buildMap_cases todos now x u hu
    exact absurd hw (by simp [initSched])
  · intro y
    constructor
    · intro hy
      obtain ⟨u, hu⟩ := Option.isSome_iff_exists.mp hy
      obtain ⟨t, ht, htid, _⟩ := mget_buildMap_cases todos now y u hu
      exact ⟨t, ht, htid⟩
    · rintro ⟨t, ht, rfl⟩
      exact buildMap_domSome todos now t ht
  · intro x u hu
    obtain ⟨t, ht, htid, rfl⟩ := mget_buildMap_cases todos now x u hu
    exact ⟨t, ht, htid, rfl, rfl⟩

/-- After the forward pass the invariants hold and every supplied task has
its earliest dates set. -/
theorem stageForward_correct (todos : List Todo) (now : Int) (rank : Int → Nat)
    (hnd : NodupIds todos) (hac : AcyclicRank todos rank)
    (hrefs : RefsClosed todos) :
    GoodF todos now rank (stageForward todos now) ∧
    DomEq todos (stageForward todos now) ∧
    StatDD todos now (stageForward todos now) ∧
    ∀ t ∈ todos, efSet (stageForward todos now) t.id := by
  obtain ⟨hg0, hdom0, hsdd0⟩ := buildMap_fwd_inv todos now rank
  have aux : ∀ (l : List Todo) (m : TMap),
      GoodF todos now rank m → DomEq todos m → StatDD todos now m →
      (GoodF todos now rank (l.foldl (fun m' t =>
          (calcE (buildGraph todos) now (todos.length + 1) t.id m' []).1) m) ∧
       DomEq todos (l.foldl (fun m' t =>
          (calcE (buildGraph todos) now (todos.length + 1) t.id m' []).1) m) ∧
       StatDD todos now (l.foldl (fun m' t =>
          (calcE (buildGraph todos) now (todos.length + 1) t.id m' []).1) m) ∧
       (∀ y, efSet m y → efSet (l.foldl (fun m' t =>
          (calcE (buildGraph todos) now (todos.length + 1) t.id m' []).1) m) y) ∧
       ∀ t ∈ l, t ∈ todos → efSet (l.foldl (fun m' t =>
          (calcE (buildGraph todos) now (todos.length + 1) t.id m' []).1) m) t.id) := by
    intro l
    induction l with
    | nil =>
      intro m hg hdom hsdd
      exact ⟨hg, hdom, hsdd, fun y h => h, fun t ht _ => absurd ht (by simp)⟩
    | cons t rest ih =>
      intro m hg hdom hsdd
      have hstep := calcE_correct todos now rank hnd hac hrefs
        (todos.length + 1) t.id m [] hg hdom hsdd
        (fun y hy => absurd hy (by simp))
        (by have := countLt_le_length todos rank t.id; omega)
      obtain ⟨hg1, hmono1, _, _, hcomp1⟩ := hstep
      have hstat1 : StatEq m (calcE (buildGraph todos) now
          (todos.length + 1) t.id m []).1 :=
        (calcE_evol (buildGraph todos) now (todos.length + 1) t.id m []).statEqE
      obtain ⟨hg2, hdom2, hsdd2, hmono2, hset2⟩ :=
        ih (calcE (buildGraph todos) now (todos.length + 1) t.id m []).1 hg1
          (DomEq_of_statEq todos hstat1 hdom)
          (StatDD_of_statEq todos now hstat1 hsdd)
      refine ⟨hg2, hdom2, hsdd2, fun y hy => hmono2 y (hmono1 y hy),
        fun u hu hut => ?_⟩
      rcases List.mem_cons.mp hu with rfl | hu'
      · exact hmono2 u.id (hcomp1 ⟨u, hut, rfl⟩)
      · exact hset2 u hu' hut
  rw [stageForward]
  obtain ⟨hg, hdom, hsdd, _, hset⟩ :=
    aux todos (buildMap todos now) hg0 hdom0 hsdd0
  exact ⟨hg, hdom, hsdd, fun t ht => hset t ht ht⟩

/-- The latest start of the entry at y is present. -/
def lsSet (m : TMap) (y : Int) : Prop :=
  ∃ u w, mget m y = some u ∧ u.latestStartDate = some w

/-- Every set latest finish carries its specification value. -/
def GoodL (todos : List Todo) (now pe : Int) (rank : Int → Nat) (m : TMap) : Prop :=
  ∀ x u, mget m x = some u → ∀ w, u.latestFinishDate = some w →
    lfSpec todos now pe (countGt todos rank x + 1) x = some w

/-- The specification value of one dependent in the backward fold, at the
fuel of that dependent. -/
def lsStepAt (todos : List Todo) (now pe : Int) (rank : Int → Nat)
    (d : Int) : Option Int :=
  lsSpecStep todos now (lfSpec todos now pe (countGt todos rank d + 1)) d

/-- On a map satisfying the backward invariants, the recorded latest start
of an entry is the specification step value of that node. -/
theorem lsStepAt_of_entry (todos : List Todo) (now pe : Int) (rank : Int → Nat)
    (hnd : NodupIds todos) {m : TMap}
    (hsh : ShapeOK m) (hsdd : StatDD todos now m)
    (hgl : GoodL todos now pe rank m) {d : Int} {u : ScheduledTodo}
    (hu : mget m d = some u) {s : Int} (hls : u.latestStartDate = some s) :
    lsStepAt todos now pe rank d = some s := by
  have hsh2 := (hsh d u hu).2.1
  rw [hls] at hsh2
  cases hlf : u.latestFinishDate with
  | none => rw [hlf] at hsh2; exact absurd hsh2 (by simp)
  | some w =>
    rw [hlf] at hsh2
    have hsval : s = addDays w (-u.duration) := by
      have := hsh2
      simp only [Option.map_some'] at this
      exact Option.some.inj this
    have hW := hgl d u hu w hlf
    obtain ⟨t, ht, htd, hdur, hdue⟩ := hsdd d u hu
    have hfind : todos.find? (fun u' => decide (u'.id = d)) = some t := by
      rw [← htd]; exact find_todo_nodup todos hnd ht
    simp only [lsStepAt, lsSpecStep, hW, hfind]
    rw [hsval, hdur]

/-- Unfolding equation for one step of the dependent loop when the
dependent has an entry and ends the step with a known latest start. -/
theorem calcLDepsGen_cons (visit : Int → TMap → List Int → TMap × List Int)
    (d : Int) (rest : List Int) (m : TMap) (v : List Int) (acc : Int)
    (dep : ScheduledTodo) (m2 : TMap) (v2 : List Int) (e : Int)
    (hdep : mget m d = some dep)
    (hs : (if dep.latestStartDate.isNone then visit d m v else (m, v)) = (m2, v2))
    (he : (mget m2 d).bind (fun u => u.latestStartDate) = some e) :
    calcLDepsGen visit (d :: rest) m v acc
      = calcLDepsGen visit rest m2 v2 (if e < acc then e else acc) := by
  simp only [calcLDepsGen, hdep, hs, he]

/-- The dependent loop of the backward pass computes exactly the
specification fold, sets the latest dates of every listed dependent, and
preserves the invariants, assuming its recursive visit does so. -/
theorem calcLDepsGen_correct (todos : List Todo) (now pe : Int)
    (rank : Int → Nat) (hnd : NodupIds todos)
    (f : Nat) (visit : Int → TMap → List Int → TMap × List Int)
    (hvE : ∀ x m v, EvolL m (visit x m v).1)
    (hvisit : ∀ (x : Int) (m : TMap) (v : List Int),
      GoodL todos now pe rank m → DomEq todos m → StatDD todos now m →
      ShapeOK m →
      (∀ y ∈ v, ¬ IdOf todos y ∨ lsSet m y ∨ rank y < rank x) →
      countGt todos rank x < f →
      (GoodL todos now pe rank (visit x m v).1 ∧
       (∀ y, lsSet m y → lsSet (visit x m v).1 y) ∧
       (∀ y ∈ v, y ∈ (visit x m v).2) ∧
       (∀ y ∈ (visit x m v).2,
          y ∈ v ∨ ¬ IdOf todos y ∨ lsSet (visit x m v).1 y) ∧
       (IdOf todos x → lsSet (visit x m v).1 x))) :
    ∀ (ds : List Int) (m : TMap) (v : List Int) (acc : Int),
      GoodL todos now pe rank m → DomEq todos m → StatDD todos now m →
      ShapeOK m →
      (∀ d ∈ ds, IdOf todos d ∧ countGt todos rank d < f) →
      (∀ y ∈ v, ¬ IdOf todos y ∨ lsSet m y ∨ (∀ d ∈ ds, rank y < rank d)) →
      (GoodL todos now pe rank (calcLDepsGen visit ds m v acc).1 ∧
       (∀ y, lsSet m y → lsSet (calcLDepsGen visit ds m v acc).1 y) ∧
       (∀ y ∈ v, y ∈ (calcLDepsGen visit ds m v acc).2.1) ∧
       (∀ y ∈ (calcLDepsGen visit ds m v acc).2.1,
          y ∈ v ∨ ¬ IdOf todos y ∨ lsSet (calcLDepsGen visit ds m v acc).1 y) ∧
       (∀ d ∈ ds, lsSet (calcLDepsGen visit ds m v acc).1 d) ∧
       (calcLDepsGen visit ds m v acc).2.2
         = ds.foldl (fun a d =>
             match lsStepAt todos now pe rank d with
             | some w => if w < a then w else a
             | none => a) acc) := by
  intro ds
  induction ds with
  | nil =>
    intro m v acc hg hd hs hsh _ hv
    exact ⟨hg, fun y h => h, fun y h => h, fun y h => Or.inl h,
      fun d hd => absurd hd (by simp), rfl⟩
  | cons d rest ih =>
    intro m v acc hg hdom hsdd hsh hds hv
    have hdid : IdOf todos d := (hds d (List.mem_cons_self d rest)).1
    have hdfuel : countGt todos rank d < f := (hds d (List.mem_cons_self d rest)).2
    have hdsome : (mget m d).isSome := (hdom d).mpr hdid
    obtain ⟨dep, hdep⟩ := Option.isSome_iff_exists.mp hdsome
    by_cases hif : dep.latestStartDate.isNone
    · -- the dependent is unresolved: recurse into it
      have hvis := hvisit d m v hg hdom hsdd hsh
        (fun y hy => by
          rcases hv y hy with h | h | h
          · exact Or.inl h
          · exact Or.inr (Or.inl h)
          · exact Or.inr (Or.inr (h d (List.mem_cons_self d rest))))
        hdfuel
      obtain ⟨hg2, hmono2, hvsub2, hvnew2, hcomp2⟩ := hvis
      have hstat2 : StatEq m (visit d m v).1 := (hvE d m v).statEqL
      have hdom2 : DomEq todos (visit d m v).1 := DomEq_of_statEq todos hstat2 hdom
      have hsdd2 : StatDD todos now (visit d m v).1 :=
        StatDD_of_statEq todos now hstat2 hsdd
      have hsh2 : ShapeOK (visit d m v).1 := (hvE d m v).shapePresL hsh
      obtain ⟨dep2, e2, hdep2, he2⟩ := hcomp2 hdid
      have hLS : lsStepAt todos now pe rank d = some e2 :=
        lsStepAt_of_entry todos now pe rank hnd hsh2 hsdd2 hg2 hdep2 he2
      have hacc : ((mget (visit d m v).1 d).bind
          (fun u => u.latestStartDate)) = some e2 := by
        rw [hdep2]; exact he2
      have heq : calcLDepsGen visit (d :: rest) m v acc
          = calcLDepsGen visit rest (visit d m v).1 (visit d m v).2
              (if e2 < acc then e2 else acc) :=
        calcLDepsGen_cons visit d rest m v acc dep _ _ e2 hdep
          (by rw [if_pos hif]) hacc
      rw [heq]
      obtain ⟨hg3, hmono3, hvsub3, hvnew3, hset3, hacc3⟩ :=
        ih (visit d m v).1 (visit d m v).2 (if e2 < acc then e2 else acc)
          hg2 hdom2 hsdd2 hsh2
          (fun d' hd' => hds d' (List.mem_cons_of_mem d hd'))
          (fun y hy => by
            rcases hvnew2 y hy with h | h | h
            · rcases hv y h with h' | h' | h'
              · exact Or.inl h'
              · exact Or.inr (Or.inl (hmono2 y h'))
              · exact Or.inr (Or.inr (fun d' hd' =>
                  h' d' (List.mem_cons_of_mem d hd')))
            · exact Or.inl h
            · exact Or.inr (Or.inl h))
      refine ⟨hg3, ?_, ?_, ?_, ?_, ?_⟩
      · intro y hy
        exact hmono3 y (hmono2 y hy)
      · intro y hy
        exact hvsub3 y (hvsub2 y hy)
      · intro y hy
        rcases hvnew3 y hy with h | h | h
        · rcases hvnew2 y h with h' | h' | h'
          · exact Or.inl h'
          · exact Or.inr (Or.inl h')
          · exact Or.inr (Or.inr (hmono3 y h'))
        · exact Or.inr (Or.inl h)
        · exact Or.inr (Or.inr h)
      · intro d' hd'
        rcases List.mem_cons.mp hd' with rfl | hd''
        · exact hmono3 d' (hcomp2 hdid)
        · exact hset3 d' hd''
      · simp only [List.foldl_cons]
        rw [hLS]
        exact hacc3
    · -- the dependent already carries its latest start
      have hlsd : lsSet m d := by
        cases he' : dep.latestStartDate with
        | none => rw [he'] at hif; exact absurd rfl hif
        | some e => exact ⟨dep, e, hdep, he'⟩
      obtain ⟨dep', e, hdep', he⟩ := hlsd
      obtain rfl : dep = dep' := by rw [hdep] at hdep'; exact Option.some.inj hdep'
      have hLS : lsStepAt todos now pe rank d = some e :=
        lsStepAt_of_entry todos now pe rank hnd hsh hsdd hg hdep he
      have hacc : ((mget m d).bind (fun u => u.latestStartDate)) = some e := by
        rw [hdep]; exact he
      have heq : calcLDepsGen visit (d :: rest) m v acc
          = calcLDepsGen visit rest m v (if e < acc then e else acc) :=
        calcLDepsGen_cons visit d rest m v acc dep m v e hdep
          (by rw [if_neg hif]) hacc
      rw [heq]
      obtain ⟨hg3, hmono3, hvsub3, hvnew3, hset3, hacc3⟩ :=
        ih m v (if e < acc then e else acc) hg hdom hsdd hsh
          (fun d' hd' => hds d' (List.mem_cons_of_mem d hd'))
          (fun y hy => by
            rcases hv y hy with h | h | h
            · exact Or.inl h
            · exact Or.inr (Or.inl h)
            · exact Or.inr (Or.inr (fun d' hd' =>
                h d' (List.mem_cons_of_mem d hd'))))
      refine ⟨hg3, hmono3, hvsub3, ?_, ?_, ?_⟩
      · intro y hy
        rcases hvnew3 y hy with h | h | h
        · exact Or.inl h
        · exact Or.inr (Or.inl h)
        · exact Or.inr (Or.inr h)
      · intro d' hd'
        rcases List.mem_cons.mp hd' with rfl | hd''
        · exact hmono3 d' ⟨dep, e, hdep, he⟩
        · exact hset3 d' hd''
      · simp only [List.foldl_cons]
        rw [hLS]
        exact hacc3

/-- The backward pass on one node: on a valid store it preserves the
invariants, grows the visited set consistently, sets the latest dates of
the visited node, and every latest finish it records is the specification
value for that node. -/
theorem calcL_correct (todos : List Todo) (now pe : Int) (rank : Int → Nat)
    (hnd : NodupIds todos) (hac : AcyclicRank todos rank) :
    ∀ (f : Nat) (x : Int) (m : TMap) (v : List Int),
      GoodL todos now pe rank m → DomEq todos m → StatDD todos now m →
      ShapeOK m →
      (∀ y ∈ v, ¬ IdOf todos y ∨ lsSet m y ∨ rank y < rank x) →
      countGt todos rank x < f →
      (GoodL todos now pe rank (calcL todos pe f x m v).1 ∧
       (∀ y, lsSet m y → lsSet (calcL todos pe f x m v).1 y) ∧
       (∀ y ∈ v, y ∈ (calcL todos pe f x m v).2) ∧
       (∀ y ∈ (calcL todos pe f x m v).2,
          y ∈ v ∨ ¬ IdOf todos y ∨ lsSet (calcL todos pe f x m v).1 y) ∧
       (IdOf todos x → lsSet (calcL todos pe f x m v).1 x)) := by
  intro f
  induction f with
  | zero =>
    intro x m v _ _ _ _ _ hfuel
    exact absurd hfuel (Nat.not_lt_zero _)
  | succ f ihf =>
    intro x m v hg hdom hsdd hsh hv hfuel
    simp only [calcL]
    by_cases hxv : x ∈ v
    · simp only [hxv, if_true]
      refine ⟨hg, fun y h => h, fun y h => h, fun y h => Or.inl h, fun hid => ?_⟩
      rcases hv x hxv with h | h | h
      · exact absurd hid h
      · exact h
      · exact absurd h (lt_irrefl _)
    · simp only [hxv, if_false]
      cases hmx : mget m x with
      | none =>
        have hnid : ¬ IdOf todos x := by
          intro hid
          have := (hdom x).mpr hid
          rw [hmx] at this
          exact absurd this (by simp)
        refine ⟨hg, fun y h => h, fun y hy => List.mem_cons_of_mem x hy,
          fun y hy => ?_, fun hid => absurd hid hnid⟩
        rcases List.mem_cons.mp hy with rfl | hy'
        · exact Or.inr (Or.inl hnid)
        · exact Or.inl hy'
      | some t =>
        obtain ⟨tx, htx, htxid⟩ : IdOf todos x := by
          exact (hdom x).mp (by rw [hmx]; simp)
        have hfind : todos.find? (fun u => decide (u.id = x)) = some tx := by
          rw [← htxid]
          exact find_todo_nodup todos hnd htx
        obtain ⟨t', ht', ht'x, hdur, hdue⟩ := hsdd x t hmx
        have heqt : t' = tx :=
          todo_id_unique todos hnd ht' htx (ht'x.trans htxid.symm)
        rw [heqt] at hdur hdue
        cases hdse : (dependentsOf todos x).isEmpty with
        | true =>
          simp only [hdse, if_true, hmx]
          have hWlf : (lWrite t (t.dueDate.getD pe)).latestFinishDate
              = some (t.dueDate.getD pe) :=
            (lWrite_fields t (t.dueDate.getD pe)).2.2.1
          have hWls : (lWrite t (t.dueDate.getD pe)).latestStartDate
              = some (addDays (t.dueDate.getD pe) (-t.duration)) :=
            (lWrite_fields t (t.dueDate.getD pe)).2.2.2.1
          have hLFx : lfSpec todos now pe (countGt todos rank x + 1) x
              = some (t.dueDate.getD pe) := by
            simp only [lfSpec, hfind]
            rw [if_pos hdse, hdue]
          have hlsx : lsSet (mset m x (lWrite t (t.dueDate.getD pe))) x :=
            ⟨lWrite t (t.dueDate.getD pe), addDays (t.dueDate.getD pe) (-t.duration),
              mget_mset_self m x _, hWls⟩
          refine ⟨?_, ?_, fun y hy => List.mem_cons_of_mem x hy,
            fun y hy => ?_, fun _ => hlsx⟩
          · intro y u hu w hw
            by_cases hxy : x = y
            · subst hxy
              rw [mget_mset_self] at hu
              obtain rfl : lWrite t (t.dueDate.getD pe) = u := Option.some.inj hu
              rw [hWlf] at hw
              obtain rfl : t.dueDate.getD pe = w := Option.some.inj hw
              exact hLFx
            · rw [mget_mset_ne m _ hxy] at hu
              exact hg y u hu w hw
          · intro y hy
            by_cases hxy : x = y
            · subst hxy
              exact hlsx
            · obtain ⟨u, w, hu, hw⟩ := hy
              exact ⟨u, w, by rw [mget_mset_ne m _ hxy]; exact hu, hw⟩
          · rcases List.mem_cons.mp hy with rfl | hy'
            · exact Or.inr (Or.inr hlsx)
            · exact Or.inl hy'
        | false =>
          simp only [hdse, Bool.false_eq_true, if_false]
          have hdse' : ¬ (dependentsOf todos x).isEmpty = true := by
            rw [hdse]; exact Bool.false_ne_true
          have hdsarg : ∀ d ∈ dependentsOf todos x,
              IdOf todos d ∧ countGt todos rank d < f := by
            intro d hd
            obtain ⟨u, hu, hud, hxu⟩ := (dependentsOf_mem todos x d).mp hd
            have hdid : IdOf todos d := ⟨u, hu, hud⟩
            have hrank : rank x < rank d := hud ▸ hac u hu x hxu
            have hcd : countGt todos rank d < countGt todos rank x :=
              countGt_lt todos rank hdid hrank
            exact ⟨hdid, by omega⟩
          have hrankds : ∀ d ∈ dependentsOf todos x, rank x < rank d := by
            intro d hd
            obtain ⟨u, hu, hud, hxu⟩ := (dependentsOf_mem todos x d).mp hd
            exact hud ▸ hac u hu x hxu
          have Hdeps := calcLDepsGen_correct todos now pe rank hnd f
            (fun d m' v' => calcL todos pe f d m' v')
            (fun x' m' v' => calcL_evol todos pe f x' m' v')
            (fun x' m' v' hg' hdom' hsdd' hsh' hv' hf' =>
              ihf x' m' v' hg' hdom' hsdd' hsh' hv' hf')
            (dependentsOf todos x) m (x :: v) pe hg hdom hsdd hsh hdsarg
            (fun y hy => by
              rcases List.mem_cons.mp hy with rfl | hy'
              · exact Or.inr (Or.inr hrankds)
              · rcases hv y hy' with h | h | h
                · exact Or.inl h
                · exact Or.inr (Or.inl h)
                · exact Or.inr (Or.inr (fun d hd =>
                    h.trans (hrankds d hd))))
          rcases h2 : calcLDepsGen (fun d m' v' => calcL todos pe f d m' v')
              (dependentsOf todos x) m (x :: v) pe with ⟨m2, v2, eds⟩
          rw [h2] at Hdeps
          obtain ⟨hg2, hmono2, hvsub2, hvnew2, hset2, hacc2⟩ := Hdeps
          dsimp only at hg2 hmono2 hvsub2 hvnew2 hset2 hacc2
          dsimp only
          have hevol2 : EvolL m m2 := by
            have := calcLDepsGen_evol (fun d m' v' => calcL todos pe f d m' v')
              (fun x' m' v' => calcL_evol todos pe f x' m' v')
              (dependentsOf todos x) m (x :: v) pe
            rw [h2] at this
            exact this
          have hstat2 : StatEq m m2 := hevol2.statEqL
          have hdom2 : DomEq todos m2 := DomEq_of_statEq todos hstat2 hdom
          have hsdd2 : StatDD todos now m2 := StatDD_of_statEq todos now hstat2 hsdd
          have hsh2 : ShapeOK m2 := hevol2.shapePresL hsh
          cases hm2 : mget m2 x with
          | none =>
            have := (hdom2 x).mpr ⟨tx, htx, htxid⟩
            rw [hm2] at this
            exact absurd this (by simp)
          | some t2 =>
            simp only [hm2]
            obtain ⟨t2', ht2', ht2'x, hdur2, hdue2⟩ := hsdd2 x t2 hm2
            have heqt2 : t2' = tx :=
              todo_id_unique todos hnd ht2' htx (ht2'x.trans htxid.symm)
            rw [heqt2] at hdur2 hdue2
            have hW2lf : (lWrite t2 eds).latestFinishDate = some eds :=
              (lWrite_fields t2 eds).2.2.1
            have hW2ls : (lWrite t2 eds).latestStartDate
                = some (addDays eds (-t2.duration)) :=
              (lWrite_fields t2 eds).2.2.2.1
            have heds : eds = (dependentsOf todos x).foldl (fun acc d =>
                match lsSpecStep todos now
                    (lfSpec todos now pe (countGt todos rank x)) d with
                | some w => if w < acc then w else acc
                | none => acc) pe := by
              rw [hacc2]
              apply foldl_congr_mem
              intro b d hdmem
              obtain ⟨u, hu, hud, hxu⟩ := (dependentsOf_mem todos x d).mp hdmem
              have hrank : rank x < rank d := hud ▸ hac u hu x hxu
              have hdid : ∃ w ∈ todos, w.id = d := ⟨u, hu, hud⟩
              have hcd : countGt todos rank d < countGt todos rank x :=
                countGt_lt todos rank hdid hrank
              rw [show lsStepAt todos now pe rank d
                  = lsSpecStep todos now
                      (lfSpec todos now pe (countGt todos rank x)) d from by
                rw [lsStepAt, lsSpecStep, lsSpecStep,
                  lfSpec_stable todos now pe rank hnd hac
                    (countGt todos rank d + 1) d (countGt todos rank d + 1)
                    (countGt todos rank x) (by omega) (by omega) (by omega)]]
            have hLFx : lfSpec todos now pe (countGt todos rank x + 1) x
                = some eds := by
              simp only [lfSpec, hfind]
              rw [if_neg hdse', heds]
            have hlsx : lsSet (mset m2 x (lWrite t2 eds)) x :=
              ⟨lWrite t2 eds, addDays eds (-t2.duration),
                mget_mset_self m2 x _, hW2ls⟩
            refine ⟨?_, ?_, ?_, fun y hy => ?_, fun _ => hlsx⟩
            · intro y u hu w hw
              by_cases hxy : x = y
              · subst hxy
                rw [mget_mset_self] at hu
                obtain rfl : lWrite t2 eds = u := Option.some.inj hu
                rw [hW2lf] at hw
                obtain rfl : eds = w := Option.some.inj hw
                exact hLFx
              · rw [mget_mset_ne m2 _ hxy] at hu
                exact hg2 y u hu w hw
            · intro y hy
              by_cases hxy : x = y
              · subst hxy
                exact hlsx
              · obtain ⟨u, w, hu, hw⟩ := hmono2 y hy
                exact ⟨u, w, by rw [mget_mset_ne m2 _ hxy]; exact hu, hw⟩
            · intro y hy
              exact hvsub2 y (List.mem_cons_of_mem x hy)
            · have hls2 : ∀ z, lsSet m2 z → lsSet (mset m2 x (lWrite t2 eds)) z := by
                intro z hz
                by_cases hxz : x = z
                · subst hxz
                  exact hlsx
                · obtain ⟨u, w, hu, hw⟩ := hz
                  exact ⟨u, w, by rw [mget_mset_ne m2 _ hxz]; exact hu, hw⟩
              rcases hvnew2 y hy with h | h | h
              · rcases List.mem_cons.mp h with rfl | hy'
                · exact Or.inr (Or.inr hlsx)
                · exact Or.inl hy'
              · exact Or.inr (Or.inl h)
              · exact Or.inr (Or.inr (hls2 y h))

/-- Forward-field equality transports the forward value invariant. -/
theorem GoodF_of_fwdEq (todos : List Todo) (now : Int) (rank : Int → Nat)
    {m m' : TMap} (h : FwdEq m m') (hg : GoodF todos now rank m) :
    GoodF todos now rank m' := by
  intro x u hu w hw
  have hx := h x
  rw [hu] at hx
  cases hm : mget m x with
  | none => rw [hm] at hx; exact absurd hx (by simp)
  | some u0 =>
    rw [hm] at hx
    have hfp : fwdPart u = fwdPart u0 := by simpa using hx
    apply hg x u0 hm w
    rw [show u0.earliestFinishDate = (fwdPart u0).2 from rfl, ← hfp]
    exact hw

/-- Forward-field equality transports presence of the earliest finish. -/
theorem efSet_of_fwdEq {m m' : TMap} (h : FwdEq m m') {y : Int}
    (hy : efSet m y) : efSet m' y := by
  obtain ⟨u, w, hu, hw⟩ := hy
  have hx := h y
  rw [hu] at hx
  cases hm : mget m' y with
  | none => rw [hm] at hx; exact absurd hx.symm (by simp)
  | some u' =>
    rw [hm] at hx
    have hfp : fwdPart u' = fwdPart u := by simpa using hx
    refine ⟨u', w, hm, ?_⟩
    rw [show u'.earliestFinishDate = (fwdPart u').2 from rfl, hfp]
    exact hw

/-- After the backward pass the invariants hold and every supplied task has
its latest dates set. -/
theorem stageBackward_correct (todos : List Todo) (now : Int) (rank : Int → Nat)
    (hnd : NodupIds todos) (hac : AcyclicRank todos rank)
    (hrefs : RefsClosed todos) :
    GoodL todos now (stagePE todos now) rank (stageBackward todos now) ∧
    DomEq todos (stageBackward todos now) ∧
    StatDD todos now (stageBackward todos now) ∧
    ∀ t ∈ todos, lsSet (stageBackward todos now) t.id := by
  obtain ⟨_, hdom0, hsdd0, _⟩ := stageForward_correct todos now rank hnd hac hrefs
  have hg0 : GoodL todos now (stagePE todos now) rank (stageForward todos now) := by
    intro x u hu w hw
    have hln := (stageForward_inv todos now).2.1 x u hu
    rw [hln.2] at hw
    exact absurd hw (by simp)
  have hsh0 : ShapeOK (stageForward todos now) := (stageForward_inv todos now).1
  have aux : ∀ (l : List Todo) (m : TMap),
      GoodL todos now (stagePE todos now) rank m → DomEq todos m →
      StatDD todos now m → ShapeOK m →
      (GoodL todos now (stagePE todos now) rank (l.foldl (fun m' t =>
          (calcL todos (stagePE todos now) (todos.length + 1) t.id m' []).1) m) ∧
       DomEq todos (l.foldl (fun m' t =>
          (calcL todos (stagePE todos now) (todos.length + 1) t.id m' []).1) m) ∧
       StatDD todos now (l.foldl (fun m' t =>
          (calcL todos (stagePE todos now) (todos.length + 1) t.id m' []).1) m) ∧
       (∀ y, lsSet m y → lsSet (l.foldl (fun m' t =>
          (calcL todos (stagePE todos now) (todos.length + 1) t.id m' []).1) m) y) ∧
       ∀ t ∈ l, t ∈ todos → lsSet (l.foldl (fun m' t =>
          (calcL todos (stagePE todos now) (todos.length + 1) t.id m' []).1) m)
            t.id) := by
    intro l
    induction l with
    | nil =>
      intro m hg hdom hsdd _
      exact ⟨hg, hdom, hsdd, fun y h => h, fun t ht _ => absurd ht (by simp)⟩
    | cons t rest ih =>
      intro m hg hdom hsdd hsh
      have hstep := calcL_correct todos now (stagePE todos now) rank hnd hac
        (todos.length + 1) t.id m [] hg hdom hsdd hsh
        (fun y hy => absurd hy (by simp))
        (by have := countGt_le_length todos rank t.id; omega)
      obtain ⟨hg1, hmono1, _, _, hcomp1⟩ := hstep
      have hevol1 : EvolL m (calcL todos (stagePE todos now)
          (todos.length + 1) t.id m []).1 :=
        calcL_evol todos (stagePE todos now) (todos.length + 1) t.id m []
      obtain ⟨hg2, hdom2, hsdd2, hmono2, hset2⟩ :=
        ih (calcL todos (stagePE todos now) (todos.length + 1) t.id m []).1 hg1
          (DomEq_of_statEq todos hevol1.statEqL hdom)
          (StatDD_of_statEq todos now hevol1.statEqL hsdd)
          (hevol1.shapePresL hsh)
      refine ⟨hg2, hdom2, hsdd2, fun y hy => hmono2 y (hmono1 y hy),
        fun u hu hut => ?_⟩
      rcases List.mem_cons.mp hu with rfl | hu'
      · exact hmono2 u.id (hcomp1 ⟨u, hut, rfl⟩)
      · exact hset2 u hu' hut
  rw [stageBackward]
  obtain ⟨hg, hdom, hsdd, _, hset⟩ := aux todos (stageForward todos now)
    hg0 hdom0 hsdd0 hsh0
  exact ⟨hg, hdom, hsdd, fun t ht => hset t ht ht⟩

/-- C3: for every dependency edge (A depends on B) of an input with unique
ids, an acyclic dependency graph, mutually consistent dependency and
dependent lists, and references that all name supplied tasks, the schedule
returned by calculateCriticalPath has both earliest dates of A and B and
both latest dates of A and B set, with
earliestStart(A) ≥ earliestFinish(B) and latestFinish(B) ≤ latestStart(A). -/
theorem criticalPath_edge_monotone (todos : List Todo) (now : Int)
    (rank : Int → Nat) (hnd : NodupIds todos) (hac : AcyclicRank todos rank)
    (hcons : ConsistentLists todos) (hrefs : RefsClosed todos)
    {A B : Todo} (hA : A ∈ todos) (hB : B ∈ todos)
    (hAB : B.id ∈ A.dependencies) :
    ∃ uA uB esA efB lsA lfB,
      mget (calculateCriticalPath todos now) A.id = some uA ∧
      mget (calculateCriticalPath todos now) B.id = some uB ∧
      uA.earliestStartDate = some esA ∧
      uB.earliestFinishDate = some efB ∧
      uA.latestStartDate = some lsA ∧
      uB.latestFinishDate = some lfB ∧
      efB ≤ esA ∧ lfB ≤ lsA := by
  obtain ⟨hgF0, _, _, hefs0⟩ := stageForward_correct todos now rank hnd hac hrefs
  obtain ⟨hgL, hdomB, hsddB, hlss⟩ :=
    stageBackward_correct todos now rank hnd hac hrefs
  have hFB : FwdEq (stageForward todos now) (stageBackward todos now) :=
    (stageBackward_inv todos now).2.2.fwdEq
  have hshB : ShapeOK (stageBackward todos now) := (stageBackward_inv todos now).1
  have hgF : GoodF todos now rank (stageBackward todos now) :=
    GoodF_of_fwdEq todos now rank hFB hgF0
  -- the entry of A after the backward pass, with all four dates
  obtain ⟨uA', efA, huA', hefA⟩ := efSet_of_fwdEq hFB (hefs0 A hA)
  obtain ⟨uA2, lsA, huA2, hlsA⟩ := hlss A hA
  rw [huA'] at huA2
  obtain rfl : uA' = uA2 := Option.some.inj huA2
  have hshA := hshB A.id uA' huA'
  have hefesA := hshA.1
  rw [hefA] at hefesA
  cases hesA0 : uA'.earliestStartDate with
  | none => rw [hesA0] at hefesA; exact absurd hefesA (by simp)
  | some esA =>
  rw [hesA0] at hefesA
  have hefAval : efA = addDays esA uA'.duration := by
    simpa using hefesA
  have hlslfA := hshA.2.1
  rw [hlsA] at hlslfA
  cases hlfA0 : uA'.latestFinishDate with
  | none => rw [hlfA0] at hlslfA; exact absurd hlslfA (by simp)
  | some lfA =>
  rw [hlfA0] at hlslfA
  have hlsAval : lsA = addDays lfA (-uA'.duration) := by
    simpa using hlslfA
  obtain ⟨tA', htA', htA'id, hdurA, _⟩ := hsddB A.id uA' huA'
  have heqA : tA' = A := todo_id_unique todos hnd htA' hA htA'id
  rw [heqA] at hdurA
  -- the entry of B after the backward pass, with all four dates
  obtain ⟨uB', efB, huB', hefB⟩ := efSet_of_fwdEq hFB (hefs0 B hB)
  obtain ⟨uB2, lsB, huB2, hlsB⟩ := hlss B hB
  rw [huB'] at huB2
  obtain rfl : uB' = uB2 := Option.some.inj huB2
  have hshBB := hshB B.id uB' huB'
  have hlslfB := hshBB.2.1
  rw [hlsB] at hlslfB
  cases hlfB0 : uB'.latestFinishDate with
  | none => rw [hlfB0] at hlslfB; exact absurd hlslfB (by simp)
  | some lfB =>
  rw [hlfB0] at hlslfB
  -- specification values of the recorded dates
  have hEFA := hgF A.id uA' huA' efA hefA
  have hEFB := hgF B.id uB' huB' efB hefB
  have hLFA := hgL A.id uA' huA' lfA hlfA0
  have hLFB := hgL B.id uB' huB' lfB hlfB0
  have hfindA : todos.find? (fun u => decide (u.id = A.id)) = some A :=
    find_todo_nodup todos hnd hA
  have hfindB : todos.find? (fun u => decide (u.id = B.id)) = some B :=
    find_todo_nodup todos hnd hB
  have hmemB : B.id ∈ jsDedup A.dependencies := (jsDedup_mem _ _).mpr hAB
  have hneA : ¬ (jsDedup A.dependencies).isEmpty = true := by
    intro h
    rw [List.isEmpty_iff] at h
    rw [h] at hmemB
    exact absurd hmemB (by simp)
  have hmemA : A.id ∈ dependentsOf todos B.id :=
    (dependentsOf_mem todos B.id A.id).mpr ⟨A, hA, rfl, hAB⟩
  have hneB : ¬ (dependentsOf todos B.id).isEmpty = true := by
    intro h
    rw [List.isEmpty_iff] at h
    rw [h] at hmemA
    exact absurd hmemA (by simp)
  have hrBA : rank B.id < rank A.id := hac A hA B.id hAB
  -- forward: the earliest start of A is the max fold, bounded below by ef(B)
  have hEFA' : efSpec todos now (countLt todos rank A.id + 1) A.id
      = some (addDays ((jsDedup A.dependencies).foldl (fun acc d =>
          match efSpec todos now (countLt todos rank A.id) d with
          | some v => if acc < v then v else acc
          | none => acc) 0) (calculateDuration A.dueDate now)) := by
    simp only [efSpec, hfindA]
    rw [if_neg hneA]
  have hcLt : countLt todos rank B.id < countLt todos rank A.id :=
    countLt_lt todos rank ⟨B, hB, rfl⟩ hrBA
  have hwB : efSpec todos now (countLt todos rank A.id) B.id = some efB := by
    rw [efSpec_stable todos now rank hnd hac hrefs
      (countLt todos rank B.id + 1) B.id (countLt todos rank A.id)
      (countLt todos rank B.id + 1) (by omega) (by omega) (by omega)]
    exact hEFB
  have hle1 : efB ≤ (jsDedup A.dependencies).foldl (fun acc d =>
      match efSpec todos now (countLt todos rank A.id) d with
      | some v => if acc < v then v else acc
      | none => acc) 0 :=
    foldl_max_ge_elem _ _ hmemB hwB 0
  have hcomb : addDays ((jsDedup A.dependencies).foldl (fun acc d =>
      match efSpec todos now (countLt todos rank A.id) d with
      | some v => if acc < v then v else acc
      | none => acc) 0) (calculateDuration A.dueDate now) = efA :=
    Option.some.inj (hEFA'.symm.trans hEFA)
  have hesAfold : efB ≤ esA := by
    have h1 : efA = addDays esA (calculateDuration A.dueDate now) := by
      rw [hefAval, hdurA]
    simp only [addDays, dayMs] at h1 hcomb
    omega
  -- backward: the latest finish of B is the min fold, bounded above by ls(A)
  have hcGt : countGt todos rank A.id < countGt todos rank B.id :=
    countGt_lt todos rank ⟨A, hA, rfl⟩ hrBA
  have hGA : lsSpecStep todos now
      (lfSpec todos now (stagePE todos now) (countGt todos rank B.id))
      A.id = some lsA := by
    have hst : lfSpec todos now (stagePE todos now)
        (countGt todos rank B.id) A.id = some lfA := by
      rw [lfSpec_stable todos now (stagePE todos now) rank hnd hac
        (countGt todos rank A.id + 1) A.id (countGt todos rank B.id)
        (countGt todos rank A.id + 1) (by omega) (by omega) (by omega)]
      exact hLFA
    simp only [lsSpecStep, hst, hfindA]
    rw [hlsAval, hdurA]
  have hLFB' : lfSpec todos now (stagePE todos now)
      (countGt todos rank B.id + 1) B.id
      = some ((dependentsOf todos B.id).foldl (fun acc d =>
          match lsSpecStep todos now
              (lfSpec todos now (stagePE todos now)
                (countGt todos rank B.id)) d with
          | some v => if v < acc then v else acc
          | none => acc) (stagePE todos now)) := by
    simp only [lfSpec, hfindB]
    rw [if_neg hneB]
  have hlfBfold : lfB = (dependentsOf todos B.id).foldl (fun acc d =>
      match lsSpecStep todos now
          (lfSpec todos now (stagePE todos now)
            (countGt todos rank B.id)) d with
      | some v => if v < acc then v else acc
      | none => acc) (stagePE todos now) :=
    Option.some.inj (hLFB.symm.trans hLFB')
  have hle2 : lfB ≤ lsA := by
    rw [hlfBfold]
    exact foldl_min_le_elem _ _ hmemA hGA (stagePE todos now)
  -- transport the four dates through the marking stage
  obtain ⟨hfwA, hbwA⟩ := criticalPath_parts todos now A.id
  obtain ⟨hfwB, hbwB⟩ := criticalPath_parts todos now B.id
  rw [huA'] at hfwA hbwA
  rw [huB'] at hfwB hbwB
  cases hMA : mget (calculateCriticalPath todos now) A.id with
  | none => rw [hMA] at hfwA; exact absurd hfwA (by simp)
  | some uA =>
  cases hMB : mget (calculateCriticalPath todos now) B.id with
  | none => rw [hMB] at hfwB; exact absurd hfwB (by simp)
  | some uB =>
  rw [hMA] at hfwA hbwA
  rw [hMB] at hfwB hbwB
  have hfpA : fwdPart uA = fwdPart uA' := by simpa using hfwA
  have hbpA : bwdPart uA = bwdPart uA' := by simpa using hbwA
  have hfpB : fwdPart uB = fwdPart uB' := by simpa using hfwB
  have hbpB : bwdPart uB = bwdPart uB' := by simpa using hbwB
  refine ⟨uA, uB, esA, efB, lsA, lfB, rfl, rfl, ?_, ?_, ?_, ?_, hesAfold, hle2⟩
  · rw [show uA.earliestStartDate = (fwdPart uA).1 from rfl, hfpA]
    exact hesA0
  · rw [show uB.earliestFinishDate = (fwdPart uB).2 from rfl, hfpB]
    exact hefB
  · rw [show uA.latestStartDate = (bwdPart uA).1 from rfl, hbpA]
    exact hlsA
  · rw [show uB.latestFinishDate = (bwdPart uB).2 from rfl, hbpB]
    exact hlfB0

/-- Witness for the edge monotonicity theorem: the two-task chain input
satisfies the store contract, and the edge from task 2 to task 1 gets
monotone schedule dates. -/
theorem criticalPath_edge_monotone_witness :
    ∃ uA uB esA efB lsA lfB,
      mget (calculateCriticalPath cexC1Todos 0) (2 : Int) = some uA ∧
      mget (calculateCriticalPath cexC1Todos 0) (1 : Int) = some uB ∧
      uA.earliestStartDate = some esA ∧
      uB.earliestFinishDate = some efB ∧
      uA.latestStartDate = some lsA ∧
      uB.latestFinishDate = some lfB ∧
      efB ≤ esA ∧ lfB ≤ lsA := by
  have hA : (⟨2, "y", none, false, [1], []⟩ : Todo) ∈ cexC1Todos := by decide
  have hB : (⟨1, "x", none, false, [], [2]⟩ : Todo) ∈ cexC1Todos := by decide
  exact criticalPath_edge_monotone cexC1Todos 0 (fun x => x.toNat)
    (by unfold NodupIds; decide) (by unfold AcyclicRank; decide)
    (by unfold ConsistentLists; decide) (by unfold RefsClosed; decide)
    hA hB (by decide)
